import Mathlib

/-!
Verification of the font-extension reconciliation engine of the
mcp-svg-to-fonts repository.  JavaScript strings are modelled as `List Char`,
JS `Map` objects as insertion-ordered association lists, numbers as `Nat`
(with explicit `% 65536` where `String.fromCharCode` truncates to a UTF-16
code unit), and the regex scans of the two stylesheet parsers as explicit
character-list matchers with the same greedy semantics.
-/

set_option maxRecDepth 10000

/-! ## Character classes (JS regex classes over ASCII as used by the source) -/

/-- JS regex `\w`: ASCII letters, digits and underscore. -/
def isWordChar (c : Char) : Bool :=
  c.isAlphanum || c = '_'

/-- JS regex `[\w-]`: word characters or a hyphen. -/
def isWordDash (c : Char) : Bool :=
  isWordChar c || c = '-'

/-- JS regex `[0-9a-fA-F]`. -/
def isHexDigitCh (c : Char) : Bool :=
  c.isDigit || ('a' ≤ c && c ≤ 'f') || ('A' ≤ c && c ≤ 'F')

/-- JS regex `\s` on the whitespace the source can emit. -/
def jsSpace (c : Char) : Bool :=
  c = ' ' || c = '\t' || c = '\n' || c = '\r' || c = '\x0b' || c = '\x0c'

/-- The character wrapped by braces in CSS text (written numerically). -/
def lbrace : Char := Char.ofNat 123

/-- The closing brace character. -/
def rbrace : Char := Char.ofNat 125

/-! ## Primitive eaters used to express the regex scans -/

/-- Consume one expected character. -/
def eatChar (c : Char) : List Char → Option (List Char)
  | [] => none
  | d :: t => if d = c then some t else none

/-- Consume an expected literal. -/
def eatLit : List Char → List Char → Option (List Char)
  | [], l => some l
  | _ :: _, [] => none
  | c :: cs, d :: t => if d = c then eatLit cs t else none

/-- Maximal run of characters satisfying `p` (greedy `X+`/`X*`). -/
def takeRun (p : Char → Bool) : List Char → List Char × List Char
  | [] => ([], [])
  | c :: t =>
    if p c then
      let r := takeRun p t
      (c :: r.1, r.2)
    else ([], c :: t)

/-- Greedy `\s*`. -/
def skipWs : List Char → List Char
  | [] => []
  | c :: t => if jsSpace c then skipWs t else c :: t

theorem eatChar_cons (c : Char) (r : List Char) : eatChar c (c :: r) = some r := by
  simp [eatChar]

theorem eatChar_some_length {c : Char} {l r : List Char} (h : eatChar c l = some r) :
    r.length < l.length := by
  cases l with
  | nil => simp [eatChar] at h
  | cons d t =>
    simp only [eatChar] at h
    split at h
    · cases h; simp
    · cases h

theorem eatLit_append (a r : List Char) : eatLit a (a ++ r) = some r := by
  induction a with
  | nil => simp [eatLit]
  | cons c cs ih => simp [eatLit, ih]

theorem eatLit_some_length {a l r : List Char} (h : eatLit a l = some r) :
    r.length ≤ l.length := by
  induction a generalizing l with
  | nil => simp [eatLit] at h; simp [h]
  | cons c cs ih =>
    cases l with
    | nil => simp [eatLit] at h
    | cons d t =>
      simp only [eatLit] at h
      split at h
      · exact le_trans (ih h) (by simp)
      · cases h

theorem takeRun_nil (p : Char → Bool) : takeRun p [] = ([], []) := rfl

theorem takeRun_cons_pos {p : Char → Bool} {c : Char} (h : p c = true) (t : List Char) :
    takeRun p (c :: t) = ((c :: (takeRun p t).1), (takeRun p t).2) := by
  simp [takeRun, h]

theorem takeRun_cons_neg {p : Char → Bool} {c : Char} (h : p c = false) (t : List Char) :
    takeRun p (c :: t) = ([], c :: t) := by
  simp [takeRun, h]

theorem takeRun_snd_length_le (p : Char → Bool) (l : List Char) :
    (takeRun p l).2.length ≤ l.length := by
  induction l with
  | nil => simp [takeRun]
  | cons c t ih =>
    by_cases h : p c
    · rw [takeRun_cons_pos h]; exact le_trans ih (by simp)
    · rw [takeRun_cons_neg (by simpa using h)]

/-- A run consisting entirely of `p`-characters followed by a blocked tail is
taken exactly. -/
theorem takeRun_all_stop {p : Char → Bool} {a b : List Char}
    (ha : ∀ c ∈ a, p c = true) (hb : ∀ d t, b = d :: t → p d = false) :
    takeRun p (a ++ b) = (a, b) := by
  induction a with
  | nil =>
    cases b with
    | nil => simp [takeRun]
    | cons d t => simpa using takeRun_cons_neg (hb d t rfl) t
  | cons c cs ih =>
    have hc : p c = true := ha c (by simp)
    have ih' := ih (fun x hx => ha x (by simp [hx]))
    simp only [List.cons_append]
    rw [takeRun_cons_pos hc, ih']

theorem skipWs_cons_pos {c : Char} (h : jsSpace c = true) (t : List Char) :
    skipWs (c :: t) = skipWs t := by
  simp [skipWs, h]

theorem skipWs_cons_neg {c : Char} (h : jsSpace c = false) (t : List Char) :
    skipWs (c :: t) = c :: t := by
  simp [skipWs, h]

theorem skipWs_length_le (l : List Char) : (skipWs l).length ≤ l.length := by
  induction l with
  | nil => simp [skipWs]
  | cons c t ih =>
    by_cases h : jsSpace c
    · rw [skipWs_cons_pos (by simpa using h)]; exact le_trans ih (by simp)
    · rw [skipWs_cons_neg (by simpa using h)]

/-! ## Number to string codecs (JS `Number.prototype.toString(16)` / `parseInt`) -/

/-- Digit character (lowercase, as JS `toString` emits). -/
def digitCh (n : Nat) : Char :=
  if n < 10 then Char.ofNat (48 + n) else Char.ofNat (87 + n)

/-- Hex digit recursion with explicit fuel (so that the kernel can evaluate
it); `toHexAux` supplies sufficient fuel. -/
def toHexCore : Nat → Nat → List Char → List Char
  | 0, _, acc => acc
  | fuel + 1, n, acc =>
    if n = 0 then acc else toHexCore fuel (n / 16) (digitCh (n % 16) :: acc)

/-- Hex digits of `n`, most significant first, accumulated onto `acc`. -/
def toHexAux (n : Nat) (acc : List Char) : List Char :=
  toHexCore n n acc

/-- JS `n.toString(16)` for a nonnegative integer. -/
def toHex (n : Nat) : List Char :=
  if n = 0 then ['0'] else toHexAux n []

/-- Numeric value of one hex digit, as `parseInt(‹c›, 16)` sees it. -/
def hexVal (c : Char) : Nat :=
  if c.isDigit then c.toNat - 48
  else if 'a' ≤ c && c ≤ 'f' then c.toNat - 87
  else if 'A' ≤ c && c ≤ 'F' then c.toNat - 55
  else 0

/-- JS `parseInt(s, 16)` on a hex-digit string. -/
def parseHex (l : List Char) : Nat :=
  l.foldl (fun a c => a * 16 + hexVal c) 0

/-- Decimal digit recursion with explicit fuel. -/
def toDecCore : Nat → Nat → List Char → List Char
  | 0, _, acc => acc
  | fuel + 1, n, acc =>
    if n = 0 then acc else toDecCore fuel (n / 10) (digitCh (n % 10) :: acc)

/-- Decimal digits of `n`, most significant first. -/
def toDecAux (n : Nat) (acc : List Char) : List Char :=
  toDecCore n n acc

/-- JS number-to-string interpolation of a nonnegative integer. -/
def toDec (n : Nat) : List Char :=
  if n = 0 then ['0'] else toDecAux n []

/-- Numeric value of one decimal digit. -/
def decVal (c : Char) : Nat := c.toNat - 48

/-- Decimal string to number. -/
def parseDec (l : List Char) : Nat :=
  l.foldl (fun a c => a * 10 + decVal c) 0

theorem hexVal_digitCh {m : Nat} (h : m < 16) : hexVal (digitCh m) = m := by
  interval_cases m <;> decide

theorem isHexDigitCh_digitCh {m : Nat} (h : m < 16) : isHexDigitCh (digitCh m) = true := by
  interval_cases m <;> decide

theorem decVal_digitCh {m : Nat} (h : m < 10) : decVal (digitCh m) = m := by
  interval_cases m <;> decide

theorem isDigit_digitCh {m : Nat} (h : m < 10) : (digitCh m).isDigit = true := by
  interval_cases m <;> decide

theorem toHexCore_fuel :
    ∀ f₁ f₂ n : Nat, ∀ acc : List Char, n ≤ f₁ → n ≤ f₂ →
      toHexCore f₁ n acc = toHexCore f₂ n acc := by
  intro f₁
  induction f₁ with
  | zero =>
    intro f₂ n acc h1 h2
    interval_cases n
    cases f₂ <;> simp [toHexCore]
  | succ f ih =>
    intro f₂ n acc h1 h2
    by_cases hn : n = 0
    · subst hn; cases f₂ <;> simp [toHexCore]
    · cases f₂ with
      | zero => omega
      | succ f2 =>
        simp only [toHexCore, hn, if_false]
        have hd : n / 16 < n := Nat.div_lt_self (Nat.pos_of_ne_zero hn) (by norm_num)
        exact ih f2 (n / 16) _ (by omega) (by omega)

theorem toDecCore_fuel :
    ∀ f₁ f₂ n : Nat, ∀ acc : List Char, n ≤ f₁ → n ≤ f₂ →
      toDecCore f₁ n acc = toDecCore f₂ n acc := by
  intro f₁
  induction f₁ with
  | zero =>
    intro f₂ n acc h1 h2
    interval_cases n
    cases f₂ <;> simp [toDecCore]
  | succ f ih =>
    intro f₂ n acc h1 h2
    by_cases hn : n = 0
    · subst hn; cases f₂ <;> simp [toDecCore]
    · cases f₂ with
      | zero => omega
      | succ f2 =>
        simp only [toDecCore, hn, if_false]
        have hd : n / 10 < n := Nat.div_lt_self (Nat.pos_of_ne_zero hn) (by norm_num)
        exact ih f2 (n / 10) _ (by omega) (by omega)

theorem toHexAux_eq (n : Nat) (acc : List Char) :
    toHexAux n acc = if n = 0 then acc else toHexAux (n / 16) (digitCh (n % 16) :: acc) := by
  unfold toHexAux
  by_cases h : n = 0
  · subst h; simp [toHexCore]
  · simp only [h, if_false]
    obtain ⟨m, rfl⟩ : ∃ m, n = m + 1 := ⟨n - 1, by omega⟩
    simp only [toHexCore, h, if_false]
    have hd : (m + 1) / 16 < m + 1 := Nat.div_lt_self (by omega) (by norm_num)
    exact toHexCore_fuel m ((m + 1) / 16) ((m + 1) / 16) _ (by omega) le_rfl

theorem toDecAux_eq (n : Nat) (acc : List Char) :
    toDecAux n acc = if n = 0 then acc else toDecAux (n / 10) (digitCh (n % 10) :: acc) := by
  unfold toDecAux
  by_cases h : n = 0
  · subst h; simp [toDecCore]
  · simp only [h, if_false]
    obtain ⟨m, rfl⟩ : ∃ m, n = m + 1 := ⟨n - 1, by omega⟩
    simp only [toDecCore, h, if_false]
    have hd : (m + 1) / 10 < m + 1 := Nat.div_lt_self (by omega) (by norm_num)
    exact toDecCore_fuel m ((m + 1) / 10) ((m + 1) / 10) _ (by omega) le_rfl

theorem toHexAux_acc (n : Nat) : ∀ acc : List Char, toHexAux n acc = toHexAux n [] ++ acc := by
  induction n using Nat.strong_induction_on with
  | _ n ih =>
    intro acc
    by_cases h : n = 0
    · subst h; simp [toHexAux_eq]
    · have hlt : n / 16 < n := Nat.div_lt_self (Nat.pos_of_ne_zero h) (by norm_num)
      rw [toHexAux_eq n acc, toHexAux_eq n []]
      simp only [h, ite_false]
      rw [ih _ hlt (digitCh (n % 16) :: acc), ih _ hlt [digitCh (n % 16)]]
      simp

theorem toDecAux_acc (n : Nat) : ∀ acc : List Char, toDecAux n acc = toDecAux n [] ++ acc := by
  induction n using Nat.strong_induction_on with
  | _ n ih =>
    intro acc
    by_cases h : n = 0
    · subst h; simp [toDecAux_eq]
    · have hlt : n / 10 < n := Nat.div_lt_self (Nat.pos_of_ne_zero h) (by norm_num)
      rw [toDecAux_eq n acc, toDecAux_eq n []]
      simp only [h, ite_false]
      rw [ih _ hlt (digitCh (n % 10) :: acc), ih _ hlt [digitCh (n % 10)]]
      simp

theorem toHexAux_foldl (n : Nat) :
    ∀ a : Nat, (toHexAux n []).foldl (fun a c => a * 16 + hexVal c) a
      = a * 16 ^ (toHexAux n []).length + n := by
  induction n using Nat.strong_induction_on with
  | _ n ih =>
    intro a
    by_cases h : n = 0
    · subst h; simp [toHexAux_eq]
    · have hlt : n / 16 < n := Nat.div_lt_self (Nat.pos_of_ne_zero h) (by norm_num)
      have hstep : toHexAux n [] = toHexAux (n / 16) [] ++ [digitCh (n % 16)] := by
        rw [toHexAux_eq]
        simp only [h, ite_false]
        exact toHexAux_acc (n / 16) [digitCh (n % 16)]
      rw [hstep, List.foldl_append, ih _ hlt a]
      simp only [List.foldl, List.length_append, List.length_singleton]
      rw [hexVal_digitCh (Nat.mod_lt n (by norm_num))]
      rw [pow_succ]
      have hdm := Nat.div_add_mod n 16
      ring_nf
      omega

theorem toDecAux_foldl (n : Nat) :
    ∀ a : Nat, (toDecAux n []).foldl (fun a c => a * 10 + decVal c) a
      = a * 10 ^ (toDecAux n []).length + n := by
  induction n using Nat.strong_induction_on with
  | _ n ih =>
    intro a
    by_cases h : n = 0
    · subst h; simp [toDecAux_eq]
    · have hlt : n / 10 < n := Nat.div_lt_self (Nat.pos_of_ne_zero h) (by norm_num)
      have hstep : toDecAux n [] = toDecAux (n / 10) [] ++ [digitCh (n % 10)] := by
        rw [toDecAux_eq]
        simp only [h, ite_false]
        exact toDecAux_acc (n / 10) [digitCh (n % 10)]
      rw [hstep, List.foldl_append, ih _ hlt a]
      simp only [List.foldl, List.length_append, List.length_singleton]
      rw [decVal_digitCh (Nat.mod_lt n (by norm_num))]
      rw [pow_succ]
      have hdm := Nat.div_add_mod n 10
      ring_nf
      omega

/-- `parseInt(n.toString(16), 16)` recovers `n`. -/
theorem parseHex_toHex (n : Nat) : parseHex (toHex n) = n := by
  by_cases h : n = 0
  · subst h; decide
  · unfold toHex parseHex
    simp only [h, ite_false]
    simpa using toHexAux_foldl n 0

/-- `parseInt` of the decimal rendering recovers `n`. -/
theorem parseDec_toDec (n : Nat) : parseDec (toDec n) = n := by
  by_cases h : n = 0
  · subst h; decide
  · unfold toDec parseDec
    simp only [h, ite_false]
    simpa using toDecAux_foldl n 0

theorem toHex_ne_nil (n : Nat) : toHex n ≠ [] := by
  by_cases h : n = 0
  · subst h; decide
  · unfold toHex
    simp only [h, ite_false]
    rw [toHexAux_eq]
    simp only [h, ite_false]
    rw [toHexAux_acc]
    simp

theorem toDec_ne_nil (n : Nat) : toDec n ≠ [] := by
  by_cases h : n = 0
  · subst h; decide
  · unfold toDec
    simp only [h, ite_false]
    rw [toDecAux_eq]
    simp only [h, ite_false]
    rw [toDecAux_acc]
    simp

theorem toHexAux_all_hex (n : Nat) : ∀ c ∈ toHexAux n [], isHexDigitCh c = true := by
  induction n using Nat.strong_induction_on with
  | _ n ih =>
    intro c hc
    rw [toHexAux_eq] at hc
    by_cases h0 : n = 0
    · simp [h0] at hc
    · simp only [h0, ite_false] at hc
      rw [toHexAux_acc] at hc
      rcases List.mem_append.mp hc with hmem | hmem
      · exact ih _ (Nat.div_lt_self (Nat.pos_of_ne_zero h0) (by norm_num)) c hmem
      · simp at hmem; subst hmem
        exact isHexDigitCh_digitCh (Nat.mod_lt n (by norm_num))

theorem toHex_all_hex (n : Nat) : ∀ c ∈ toHex n, isHexDigitCh c = true := by
  by_cases h : n = 0
  · subst h; intro c hc; simp [toHex] at hc; subst hc; decide
  · unfold toHex
    simp only [h, ite_false]
    exact toHexAux_all_hex n

theorem toDecAux_all_digit (n : Nat) : ∀ c ∈ toDecAux n [], c.isDigit = true := by
  induction n using Nat.strong_induction_on with
  | _ n ih =>
    intro c hc
    rw [toDecAux_eq] at hc
    by_cases h0 : n = 0
    · simp [h0] at hc
    · simp only [h0, ite_false] at hc
      rw [toDecAux_acc] at hc
      rcases List.mem_append.mp hc with hmem | hmem
      · exact ih _ (Nat.div_lt_self (Nat.pos_of_ne_zero h0) (by norm_num)) c hmem
      · simp at hmem; subst hmem
        exact isDigit_digitCh (Nat.mod_lt n (by norm_num))

theorem toDec_all_digit (n : Nat) : ∀ c ∈ toDec n, c.isDigit = true := by
  by_cases h : n = 0
  · subst h; intro c hc; simp [toDec] at hc; subst hc; decide
  · unfold toDec
    simp only [h, ite_false]
    exact toDecAux_all_digit n

/-! ## JS `Map` objects: insertion-ordered association lists

`set` updates an existing key in place (keeping its insertion position) or
appends a fresh entry; `get`/`has` look keys up.  This matches the iteration
order semantics of `Map.prototype.set/get/has/entries`. -/

/-- `Map.prototype.set`. -/
def mapSet {α β : Type} [DecidableEq α] : List (α × β) → α → β → List (α × β)
  | [], k, v => [(k, v)]
  | p :: t, k, v => if p.1 = k then (k, v) :: t else p :: mapSet t k v

/-- `Map.prototype.get` (`none` models `undefined`). -/
def mapGet {α β : Type} [DecidableEq α] : List (α × β) → α → Option β
  | [], _ => none
  | p :: t, k => if p.1 = k then some p.2 else mapGet t k

/-- `Map.prototype.has`. -/
def mapHas {α β : Type} [DecidableEq α] : List (α × β) → α → Bool
  | [], _ => false
  | p :: t, k => if p.1 = k then true else mapHas t k

theorem mapGet_set_self {α β : Type} [DecidableEq α] (m : List (α × β)) (k : α) (v : β) :
    mapGet (mapSet m k v) k = some v := by
  induction m with
  | nil => simp [mapSet, mapGet]
  | cons p t ih =>
    by_cases h : p.1 = k
    · simp [mapSet, h, mapGet]
    · simp [mapSet, h, mapGet, ih]

theorem mapGet_set_ne {α β : Type} [DecidableEq α] (m : List (α × β)) (k x : α) (v : β)
    (h : x ≠ k) : mapGet (mapSet m k v) x = mapGet m x := by
  have hkx : ¬(k = x) := fun he => h he.symm
  induction m with
  | nil => simp [mapSet, mapGet, hkx]
  | cons p t ih =>
    by_cases hp : p.1 = k
    · rw [show mapSet (p :: t) k v = (k, v) :: t by simp [mapSet, hp]]
      simp only [mapGet, hkx, ite_false]
      have hpx : ¬(p.1 = x) := by rw [hp]; exact hkx
      simp [hpx]
    · rw [show mapSet (p :: t) k v = p :: mapSet t k v by simp [mapSet, hp]]
      by_cases hpx : p.1 = x
      · simp [mapGet, hpx]
      · simp [mapGet, hpx, ih]

theorem mapHas_set {α β : Type} [DecidableEq α] (m : List (α × β)) (k x : α) (v : β) :
    mapHas (mapSet m k v) x = (mapHas m x || decide (x = k)) := by
  induction m with
  | nil =>
    by_cases h : x = k
    · simp [mapSet, mapHas, h]
    · have : ¬(k = x) := fun he => h he.symm
      simp [mapSet, mapHas, h, this]
  | cons p t ih =>
    by_cases hp : p.1 = k
    · rw [show mapSet (p :: t) k v = (k, v) :: t by simp [mapSet, hp]]
      by_cases hx : k = x
      · subst hx
        simp [mapHas]
      · have hxk : ¬(x = k) := fun he => hx he.symm
        have hpx : ¬(p.1 = x) := by rw [hp]; exact hx
        simp [mapHas, hx, hpx, hxk]
    · rw [show mapSet (p :: t) k v = p :: mapSet t k v by simp [mapSet, hp]]
      by_cases hpx : p.1 = x
      · simp [mapHas, hpx]
      · simp [mapHas, hpx, ih]

theorem mapHas_iff_get {α β : Type} [DecidableEq α] (m : List (α × β)) (k : α) :
    mapHas m k = false ↔ mapGet m k = none := by
  induction m with
  | nil => simp [mapHas, mapGet]
  | cons p t ih =>
    by_cases h : p.1 = k
    · simp [mapHas, mapGet, h]
    · simp [mapHas, mapGet, h, ih]

/-- `set` on a fresh key appends the new entry. -/
theorem mapSet_fresh {α β : Type} [DecidableEq α] (m : List (α × β)) (k : α) (v : β)
    (h : mapHas m k = false) : mapSet m k v = m ++ [(k, v)] := by
  induction m with
  | nil => simp [mapSet]
  | cons p t ih =>
    simp only [mapHas] at h
    by_cases hp : p.1 = k
    · simp [hp] at h
    · simp only [hp, ite_false] at h
      simp [mapSet, hp, ih h]

/-! ## The stylesheet rule matchers

Both source parsers scan with a regex of the shape
`\.(G)-(G):before\s*BRACE\s*content:\s*"\\([0-9a-fA-F]+)"` (brace written out),
where the capture class `G` is `[\w-]` in `mapGlyphNamesWithCSS`
(`glyph-extractor.ts`) and `\w` in `parseExistingFont` (`file-handler.ts`).
`matchRuleTail` is the part after the two name groups; the greedy backtracking
of the groups is resolved below exactly as the regex engine resolves it. -/

/-- One recovered stylesheet rule: selector pieces and the raw hex digits. -/
structure RuleM where
  pfx : List Char
  name : List Char
  hex : List Char
deriving DecidableEq, Repr

/-- `:before` as characters. -/
def beforeChars : List Char := [':', 'b', 'e', 'f', 'o', 'r', 'e']

/-- `content:` as characters. -/
def contentChars : List Char := ['c', 'o', 'n', 't', 'e', 'n', 't', ':']

/-- Matches `:before\s*BRACE\s*content:\s*"\\HEX"`; returns the hex digits and
the characters after the closing quote. -/
def matchRuleTail (l : List Char) : Option (List Char × List Char) :=
  (eatLit beforeChars l).bind fun l1 =>
  (eatChar lbrace (skipWs l1)).bind fun l2 =>
  (eatLit contentChars (skipWs l2)).bind fun l3 =>
  (eatChar '"' (skipWs l3)).bind fun l4 =>
  (eatChar '\\' l4).bind fun l5 =>
  if (takeRun isHexDigitCh l5).1 = [] then none
  else (eatChar '"' (takeRun isHexDigitCh l5).2).map
    fun rest2 => ((takeRun isHexDigitCh l5).1, rest2)

/-- Greedy split of a `[\w-]+` run into `([\w-]+)-([\w-]+)`: the run is cut at
the last hyphen that leaves both sides non-empty (first group maximal).
`splitLastDashAux` allows an empty left side; the wrapper prepends the
obligatory first character. -/
def splitLastDashAux : List Char → Option (List Char × List Char)
  | [] => none
  | c :: t =>
    match splitLastDashAux t with
    | some (a, b) => some (c :: a, b)
    | none => if c = '-' && !t.isEmpty then some ([], t) else none

/-- Greedy split of a run into `([\w-]+)-([\w-]+)`. -/
def splitLastDash : List Char → Option (List Char × List Char)
  | [] => none
  | c :: t => (splitLastDashAux t).map (fun p => (c :: p.1, p.2))

/-- The matcher of `mapGlyphNamesWithCSS`'s regex (`[\w-]` groups) at one
position; returns the match and the characters after it. -/
def matchRuleWD (l : List Char) : Option (RuleM × List Char) :=
  match l with
  | [] => none
  | c :: t =>
    if c = '.' then
      (splitLastDash (takeRun isWordDash t).1).bind fun g =>
        (matchRuleTail (takeRun isWordDash t).2).map fun p => (⟨g.1, g.2, p.1⟩, p.2)
    else none

/-- The matcher of `parseExistingFont`'s regex (`\w` groups) at one position. -/
def matchRuleW (l : List Char) : Option (RuleM × List Char) :=
  match l with
  | [] => none
  | c :: t =>
    if c = '.' then
      if (takeRun isWordChar t).1 = [] then none
      else
        (eatChar '-' (takeRun isWordChar t).2).bind fun r2 =>
          if (takeRun isWordChar r2).1 = [] then none
          else
            (matchRuleTail (takeRun isWordChar r2).2).map
              (fun p => (⟨(takeRun isWordChar t).1, (takeRun isWordChar r2).1, p.1⟩, p.2))
    else none

theorem matchRuleTail_length {l : List Char} {pr : List Char × List Char}
    (h : matchRuleTail l = some pr) : pr.2.length ≤ l.length := by
  unfold matchRuleTail at h
  rw [Option.bind_eq_some] at h
  obtain ⟨l1, h1, h⟩ := h
  rw [Option.bind_eq_some] at h
  obtain ⟨l2, h2, h⟩ := h
  rw [Option.bind_eq_some] at h
  obtain ⟨l3, h3, h⟩ := h
  rw [Option.bind_eq_some] at h
  obtain ⟨l4, h4, h⟩ := h
  rw [Option.bind_eq_some] at h
  obtain ⟨l5, h5, h⟩ := h
  split at h
  · cases h
  · rw [Option.map_eq_some'] at h
    obtain ⟨rest2, hr, hpr⟩ := h
    have e0 : pr.2 = rest2 := by rw [← hpr]
    have e1 : rest2.length < (takeRun isHexDigitCh l5).2.length := eatChar_some_length hr
    have e2 := takeRun_snd_length_le isHexDigitCh l5
    have e3 : l5.length < l4.length := eatChar_some_length h5
    have e4 : l4.length < (skipWs l3).length := eatChar_some_length h4
    have e5 := skipWs_length_le l3
    have e6 : l3.length ≤ (skipWs l2).length := eatLit_some_length h3
    have e7 := skipWs_length_le l2
    have e8 : l2.length < (skipWs l1).length := eatChar_some_length h2
    have e9 := skipWs_length_le l1
    have e10 : l1.length ≤ l.length := eatLit_some_length h1
    rw [e0]
    omega

theorem matchRuleWD_length {l : List Char} {pr : RuleM × List Char}
    (h : matchRuleWD l = some pr) : pr.2.length < l.length := by
  cases l with
  | nil => simp [matchRuleWD] at h
  | cons c t =>
    simp only [matchRuleWD] at h
    split at h
    · rw [Option.bind_eq_some] at h
      obtain ⟨g, hg, h⟩ := h
      rw [Option.map_eq_some'] at h
      obtain ⟨p, hp, hpr⟩ := h
      have e0 : pr.2 = p.2 := by rw [← hpr]
      have e1 := matchRuleTail_length hp
      have e2 := takeRun_snd_length_le isWordDash t
      rw [e0]
      simp only [List.length_cons]
      omega
    · cases h

theorem matchRuleW_length {l : List Char} {pr : RuleM × List Char}
    (h : matchRuleW l = some pr) : pr.2.length < l.length := by
  cases l with
  | nil => simp [matchRuleW] at h
  | cons c t =>
    simp only [matchRuleW] at h
    split at h
    · split at h
      · cases h
      · rw [Option.bind_eq_some] at h
        obtain ⟨r2, hr2, h⟩ := h
        split at h
        · cases h
        · rw [Option.map_eq_some'] at h
          obtain ⟨p, hp, hpr⟩ := h
          have e0 : pr.2 = p.2 := by rw [← hpr]
          have e1 := matchRuleTail_length hp
          have e2 := takeRun_snd_length_le isWordChar r2
          have e3 : r2.length < (takeRun isWordChar t).2.length := eatChar_some_length hr2
          have e4 := takeRun_snd_length_le isWordChar t
          rw [e0]
          simp only [List.length_cons]
          omega
    · cases h

/-! ## The scanning loops (`while ((match = regex.exec(css)) !== null)`)

A global-flag `exec` loop collects the successive non-overlapping matches from
left to right, resuming after the end of each match.  `scanW` is the loop of
`parseExistingFont`, `scanWD` the loop of `mapGlyphNamesWithCSS`. -/

/-- Fuel-driven scanning loop for the `\w`-group regex. -/
def scanWCore : Nat → List Char → List RuleM
  | 0, _ => []
  | fuel + 1, l =>
    match l with
    | [] => []
    | c :: t =>
      match matchRuleW (c :: t) with
      | some pr => pr.1 :: scanWCore fuel pr.2
      | none => scanWCore fuel t

/-- All matches of the `\w`-group rule regex, in textual order. -/
def scanW (l : List Char) : List RuleM :=
  scanWCore l.length l

/-- Fuel-driven scanning loop for the `[\w-]`-group regex. -/
def scanWDCore : Nat → List Char → List RuleM
  | 0, _ => []
  | fuel + 1, l =>
    match l with
    | [] => []
    | c :: t =>
      match matchRuleWD (c :: t) with
      | some pr => pr.1 :: scanWDCore fuel pr.2
      | none => scanWDCore fuel t

/-- All matches of the `[\w-]`-group rule regex, in textual order. -/
def scanWD (l : List Char) : List RuleM :=
  scanWDCore l.length l

theorem scanWCore_fuel :
    ∀ f₁ f₂ : Nat, ∀ l : List Char, l.length ≤ f₁ → l.length ≤ f₂ →
      scanWCore f₁ l = scanWCore f₂ l := by
  intro f₁
  induction f₁ with
  | zero =>
    intro f₂ l h1 h2
    have hl : l = [] := List.eq_nil_of_length_eq_zero (by omega)
    subst hl
    cases f₂ <;> simp [scanWCore]
  | succ f ih =>
    intro f₂ l h1 h2
    cases l with
    | nil => cases f₂ <;> simp [scanWCore]
    | cons c t =>
      cases f₂ with
      | zero => simp at h2
      | succ f2 =>
        simp only [List.length_cons] at h1 h2
        cases hm : matchRuleW (c :: t) with
        | some pr =>
          have hlen := matchRuleW_length hm
          simp only [List.length_cons] at hlen
          simp only [scanWCore, hm]
          rw [ih f2 pr.2 (by omega) (by omega)]
        | none =>
          simp only [scanWCore, hm]
          exact ih f2 t (by omega) (by omega)

theorem scanWDCore_fuel :
    ∀ f₁ f₂ : Nat, ∀ l : List Char, l.length ≤ f₁ → l.length ≤ f₂ →
      scanWDCore f₁ l = scanWDCore f₂ l := by
  intro f₁
  induction f₁ with
  | zero =>
    intro f₂ l h1 h2
    have hl : l = [] := List.eq_nil_of_length_eq_zero (by omega)
    subst hl
    cases f₂ <;> simp [scanWDCore]
  | succ f ih =>
    intro f₂ l h1 h2
    cases l with
    | nil => cases f₂ <;> simp [scanWDCore]
    | cons c t =>
      cases f₂ with
      | zero => simp at h2
      | succ f2 =>
        simp only [List.length_cons] at h1 h2
        cases hm : matchRuleWD (c :: t) with
        | some pr =>
          have hlen := matchRuleWD_length hm
          simp only [List.length_cons] at hlen
          simp only [scanWDCore, hm]
          rw [ih f2 pr.2 (by omega) (by omega)]
        | none =>
          simp only [scanWDCore, hm]
          exact ih f2 t (by omega) (by omega)

theorem scanW_nil : scanW [] = [] := rfl

theorem scanW_cons_some {c : Char} {t : List Char} {pr : RuleM × List Char}
    (h : matchRuleW (c :: t) = some pr) : scanW (c :: t) = pr.1 :: scanW pr.2 := by
  unfold scanW
  have hlen := matchRuleW_length h
  simp only [List.length_cons] at hlen ⊢
  simp only [scanWCore, h]
  rw [scanWCore_fuel t.length pr.2.length pr.2 (by omega) le_rfl]

theorem scanW_cons_none {c : Char} {t : List Char}
    (h : matchRuleW (c :: t) = none) : scanW (c :: t) = scanW t := by
  unfold scanW
  simp only [List.length_cons, scanWCore, h]

theorem scanWD_nil : scanWD [] = [] := rfl

theorem scanWD_cons_some {c : Char} {t : List Char} {pr : RuleM × List Char}
    (h : matchRuleWD (c :: t) = some pr) : scanWD (c :: t) = pr.1 :: scanWD pr.2 := by
  unfold scanWD
  have hlen := matchRuleWD_length h
  simp only [List.length_cons] at hlen ⊢
  simp only [scanWDCore, h]
  rw [scanWDCore_fuel t.length pr.2.length pr.2 (by omega) le_rfl]

theorem scanWD_cons_none {c : Char} {t : List Char}
    (h : matchRuleWD (c :: t) = none) : scanWD (c :: t) = scanWD t := by
  unfold scanWD
  simp only [List.length_cons, scanWDCore, h]

/-! ## Skipping non-matching text -/

theorem isWordDash_of_isWordChar {c : Char} (h : isWordChar c = true) :
    isWordDash c = true := by
  simp [isWordDash, h]

theorem ne_dot_of_isWordChar {c : Char} (h : isWordChar c = true) : c ≠ '.' := by
  intro he
  subst he
  simp [isWordChar, Char.isAlphanum, Char.isAlpha, Char.isUpper, Char.isLower,
    Char.isDigit] at h

theorem matchRuleW_not_dot {c : Char} (t : List Char) (h : ¬(c = '.')) :
    matchRuleW (c :: t) = none := by
  simp [matchRuleW, h]

theorem scanW_append_nodot {a : List Char} (ha : ∀ c ∈ a, c ≠ '.') (r : List Char) :
    scanW (a ++ r) = scanW r := by
  induction a with
  | nil => simp
  | cons c t ih =>
    have hc : ¬(c = '.') := ha c (by simp)
    rw [List.cons_append, scanW_cons_none (matchRuleW_not_dot _ hc)]
    exact ih (fun x hx => ha x (by simp [hx]))

/-- A dot followed by a non-word-dash character never starts a match and both
characters are skipped. -/
theorem scanW_skip_dot_blocked {c : Char} (hc1 : isWordDash c = false) (hc2 : ¬(c = '.'))
    (r : List Char) : scanW ('.' :: c :: r) = scanW r := by
  have hw : isWordChar c = false := by
    by_contra hcw
    simp only [Bool.not_eq_false] at hcw
    rw [isWordDash_of_isWordChar hcw] at hc1
    cases hc1
  have hm : matchRuleW ('.' :: c :: r) = none := by
    simp only [matchRuleW, if_pos rfl]
    rw [takeRun_cons_neg hw]
    simp
  rw [scanW_cons_none hm]
  exact scanW_cons_none (matchRuleW_not_dot _ hc2)

/-- A dot followed by a hyphen-free word run and then a blocking character
never starts a match; the whole segment is skipped. -/
theorem scanW_skip_dot_run {run : List Char} (hrun : ∀ x ∈ run, isWordChar x = true)
    {c : Char} (hc1 : isWordDash c = false) (hc2 : ¬(c = '.')) (r : List Char) :
    scanW ('.' :: (run ++ c :: r)) = scanW r := by
  have hw : isWordChar c = false := by
    by_contra hcw
    simp only [Bool.not_eq_false] at hcw
    rw [isWordDash_of_isWordChar hcw] at hc1
    cases hc1
  have hdash : ¬(c = '-') := by
    intro he
    subst he
    simp [isWordDash] at hc1
  have htr : takeRun isWordChar (run ++ c :: r) = (run, c :: r) :=
    takeRun_all_stop hrun (by intro d t he; cases he; exact hw)
  have hm : matchRuleW ('.' :: (run ++ c :: r)) = none := by
    simp only [matchRuleW, if_pos rfl, htr]
    cases run with
    | nil => simp
    | cons x xs =>
      simp only [ne_eq, reduceCtorEq, not_false_eq_true, if_neg]
      rw [show eatChar '-' (c :: r) = none by simp [eatChar, hdash]]
      rfl
  rw [scanW_cons_none hm]
  rw [scanW_append_nodot (fun x hx => ne_dot_of_isWordChar (hrun x hx))]
  exact scanW_cons_none (matchRuleW_not_dot _ hc2)

/-! ## Data model (`src/types/glyph.ts`, `src/types/font.ts`) -/

/-- `ExistingIcon`: a ledger entry recovered from the stylesheet.  `unicode`
is the UTF-16 code of the one-character string the source stores. -/
structure ExistingIcon where
  name : List Char
  unicode : Nat
deriving DecidableEq, Repr

/-- `ExtractedGlyph`: a glyph recovered from the font binary.  `unicode` is
the raw code point reported by the binary; `unicodeChar` the UTF-16 code of
the string built by `String.fromCharCode(unicode)`. -/
structure ExtractedGlyph where
  name : List Char
  unicode : Nat
  unicodeChar : Nat
  pathData : Option (List Char)
  advanceWidth : Option Nat
deriving DecidableEq, Repr

/-- A glyph record as the compile backend reports it (`glyphsData`):
basename of the vector file and the code of `metadata.unicode[0]`. -/
structure GlyphEntry where
  name : List Char
  code : Nat
deriving DecidableEq, Repr

/-- `String.fromCharCode` truncates its argument to a UTF-16 code unit. -/
def toUint16 (n : Nat) : Nat := n % 65536

/-! ## Allocation engine (`src/utils/unicode-utils.ts` and the inline
allocation loops of `extend-font.ts` / `font-generator.ts`) -/

/-- `Math.max(...)` over the listed code points (only used when non-empty). -/
def maxExistingUnicode (icons : List ExistingIcon) : Nat :=
  (icons.map (fun i => i.unicode)).foldl Nat.max 0

/-- `Math.max(...)` over raw extracted code points. -/
def maxGlyphUnicode (glyphs : List ExtractedGlyph) : Nat :=
  (glyphs.map (fun g => g.unicode)).foldl Nat.max 0

/-- `getNextUnicodeValue` from `unicode-utils.ts`. -/
def getNextUnicodeValue (existingIcons : List ExistingIcon) : Nat :=
  if existingIcons.length = 0 then 0xe000
  else maxExistingUnicode existingIcons + 1

/-- The `unicodeMap` built by `registerExtendFontTool` (`extend-font.ts`
lines 127-136): existing entries first, then each new icon name assigned
`String.fromCharCode(nextUnicodeValue++)`. -/
def extendUnicodeMap (existingIcons : List ExistingIcon)
    (newIconNames : List (List Char)) : List (List Char × Nat) :=
  let m0 := existingIcons.foldl (fun m i => mapSet m i.name i.unicode) []
  let start := getNextUnicodeValue existingIcons
  (newIconNames.foldl
    (fun acc n => (mapSet acc.1 n (toUint16 acc.2), acc.2 + 1)) (m0, start)).1

/-- The `unicodeMap` built by `generateAdvancedFont` (`font-generator.ts`
lines 47-62): existing glyphs map to their `unicodeChar`, then each new
basename not already present is assigned `String.fromCharCode(next++)`,
starting above `Math.max` of the raw extracted code points. -/
def advUnicodeMap (existingGlyphs : List ExtractedGlyph)
    (newNames : List (List Char)) : List (List Char × Nat) :=
  let m0 := existingGlyphs.foldl (fun m g => mapSet m g.name g.unicodeChar) []
  let start := if existingGlyphs.length > 0 then maxGlyphUnicode existingGlyphs + 1 else 0xe000
  (newNames.foldl
    (fun acc n =>
      if mapHas acc.1 n then acc
      else (mapSet acc.1 n (toUint16 acc.2), acc.2 + 1)) (m0, start)).1

/-! ## Binary glyph extractor (`src/services/glyph-extractor.ts`) -/

/-- A glyph as `opentype.js` hands it over: possibly without a code point,
name, outline or advance width. -/
structure RawGlyph where
  name : Option (List Char)
  unicode : Option Nat
  pathData : Option (List Char)
  advanceWidth : Option Nat
deriving DecidableEq, Repr

/-- Name synthesis of `extractGlyphsFromTTF`: `glyph.name || glyph_N`, then
the `uniXXXX` pattern is replaced by `icon_` plus lowercase hex. -/
def synthGlyphName (nm : Option (List Char)) (u : Nat) : List Char :=
  let n0 :=
    match nm with
    | some s => if s = [] then "glyph_".data ++ toDec u else s
    | none => "glyph_".data ++ toDec u
  if n0.take 3 = ['u', 'n', 'i'] && n0.length = 7 then "icon_".data ++ toHex u else n0

/-- Conversion of one kept raw glyph into an `ExtractedGlyph`. -/
def convRawGlyph (g : RawGlyph) (u : Nat) : ExtractedGlyph :=
  { name := synthGlyphName g.name u
    unicode := u
    unicodeChar := toUint16 u
    pathData := g.pathData
    advanceWidth := g.advanceWidth }

/-- The extraction loop of `extractGlyphsFromTTF`: a glyph is pushed exactly
when `glyph.unicode !== undefined && glyph.unicode > 32`. -/
def extractGlyphsFromTTF (raws : List RawGlyph) : List ExtractedGlyph :=
  raws.foldl
    (fun acc g =>
      match g.unicode with
      | some u => if 32 < u then acc ++ [convRawGlyph g u] else acc
      | none => acc) []

/-- The `iconMap` of `mapGlyphNamesWithCSS`: code point to stylesheet name,
later rules overwriting earlier ones. -/
def buildIconMap (css : List Char) : List (Nat × List Char) :=
  (scanWD css).foldl (fun m r => mapSet m (parseHex r.hex) r.name) []

/-- JS `a || b` on an optional string (`undefined` and `""` are falsy). -/
def jsOrName (o : Option (List Char)) (d : List Char) : List Char :=
  match o with
  | some n => if n = [] then d else n
  | none => d

/-- `mapGlyphNamesWithCSS`: adopt the stylesheet name at the glyph's code
point when present, otherwise keep the glyph's own name. -/
def mapGlyphNamesWithCSS (glyphs : List ExtractedGlyph) (css : List Char) :
    List ExtractedGlyph :=
  glyphs.map (fun g => { g with name := jsOrName (mapGet (buildIconMap css) g.unicode) g.name })

/-- `parseExistingFont` (`file-handler.ts`): every `\w`-group rule match, as
`{ name, unicode: String.fromCharCode(parseInt(hex, 16)) }`, in text order. -/
def parseExistingFont (css : List Char) : List ExistingIcon :=
  (scanW css).map (fun r => { name := r.name, unicode := toUint16 (parseHex r.hex) })

/-! ## Stylesheet serialization (`src/services/template-generator.ts`) -/

/-- `:before BRACE content: "\` — the rule text between the selector name and
the hex digits. -/
def ruleMid : List Char :=
  beforeChars ++ [' ', lbrace, ' '] ++ contentChars ++ [' ', '"', '\\']

/-- `"; BRACE-CLOSE` — the rule text after the hex digits. -/
def ruleClose : List Char := ['"', ';', ' ', rbrace]

/-- One generated icon rule `.PFX-NAME:before BRACE content: "\HEX"; -/
def cssIconRule (pfx name hex : List Char) : List Char :=
  '.' :: (pfx ++ '-' :: (name ++ (ruleMid ++ (hex ++ ruleClose))))

/-- JS `Array.prototype.join('\n')`. -/
def joinNL : List (List Char) → List Char
  | [] => []
  | [x] => x
  | x :: xs => x ++ '\n' :: joinNL xs

def ffA : List Char := "\n@font-face \x7b\n    font-family: \x27".data
def ffB : List Char := "\x27;\n    src: url(\x27./".data
def ffC : List Char := ".woff2\x27) format(\x27woff2\x27),\n         url(\x27./".data
def ffD : List Char := ".woff\x27) format(\x27woff\x27),\n         url(\x27./".data
def ffE : List Char :=
  ".ttf\x27) format(\x27truetype\x27);\n    font-weight: normal;\n    font-style: normal;\n\x7d\n\n.".data
def ffF : List Char := " \x7b\n    font-family: \x27".data
def ffG : List Char :=
  "\x27;\n    font-style: normal;\n    font-weight: normal;\n    font-variant: normal;\n    text-transform: none;\n    line-height: 1;\n    -webkit-font-smoothing: antialiased;\n    -moz-osx-font-smoothing: grayscale;\n\x7d\n".data

/-- The `@font-face` block plus the base class rule of `generateCSS`, with
the font name and the class name spliced in. -/
def fontFaceChars (fontName pfx : List Char) : List Char :=
  ffA ++ fontName ++ ffB ++ fontName ++ ffC ++ fontName ++ ffD ++ fontName ++
    ffE ++ pfx ++ ffF ++ fontName ++ ffG

/-- `generateCSS`: the font-face block, a newline, then one `:before` rule per
entry of the name-keyed `allIcons` map (existing icons first, then compiled
glyph entries), each rendered with lowercase hex. -/
def generateCSS (fontName pfx : List Char) (glyphs : List GlyphEntry)
    (existingIcons : List ExistingIcon) : List Char :=
  let allIcons :=
    let m0 := existingIcons.foldl (fun m i => mapSet m i.name (toHex i.unicode)) []
    glyphs.foldl (fun m g => mapSet m g.name (toHex g.code)) m0
  let iconClasses := joinNL (allIcons.map (fun p => cssIconRule pfx p.1 p.2))
  fontFaceChars fontName pfx ++ '\n' :: iconClasses

/-! ## Shape round-trip (`src/utils/svg-utils.ts`) -/

def svgA : List Char := "<svg xmlns=\"http://www.w3.org/2000/svg\" viewBox=\"0 0 ".data
def svgB : List Char := "\">\n  <path d=\"".data
def svgC : List Char := "\" transform=\"scale(1,-1) translate(0,-".data
def svgD : List Char := ")\"/>\n</svg>".data

/-- `pathDataToSVG`: the vector document for one preserved glyph. -/
def pathDataToSVG (pathData : List Char) (unitsPerEm : Nat) : List Char :=
  svgA ++ toDec unitsPerEm ++ ' ' :: toDec unitsPerEm ++ svgB ++ pathData ++
    svgC ++ toDec unitsPerEm ++ svgD

/-- `createTempSVGsFromGlyphs`: one temp vector file `(basename, content)` per
glyph whose `pathData` is truthy (present and non-empty); others are skipped
silently. -/
def createTempSVGsFromGlyphs (glyphs : List ExtractedGlyph) (unitsPerEm : Nat) :
    List (List Char × List Char) :=
  glyphs.foldl
    (fun acc g =>
      match g.pathData with
      | some pd => if pd = [] then acc else acc ++ [(g.name, pathDataToSVG pd unitsPerEm)]
      | none => acc) []

/-! ## Advanced regeneration driver (`generateAdvancedFont`) -/

/-- One glyph of the compiled font: basename of its input file and the code
point override applied through `glyphTransformFn` (`none` = backend's own). -/
structure CompiledGlyph where
  name : List Char
  code : Option Nat
deriving DecidableEq, Repr

/-- Observable outcome of `generateAdvancedFont`: the compiled glyph set (or
`none` when the backend threw), and whether the `.temp_glyphs` directory was
created resp. removed by the time the function returns. -/
structure AdvOut where
  res : Option (List CompiledGlyph)
  tempCreated : Bool
  tempRemoved : Bool
deriving DecidableEq, Repr

/-- `generateAdvancedFont`: temp SVGs are written for the preserved glyphs,
the unified file list is compiled with the allocation map as per-glyph
override, and `fs.remove(tempDir)` runs only after a successful `webfont`
call — the `catch` block rethrows without cleanup. -/
def generateAdvancedFont (existingGlyphs : List ExtractedGlyph)
    (newNames : List (List Char)) (unitsPerEm : Nat) (compileOk : Bool) : AdvOut :=
  let tempSVGs := createTempSVGsFromGlyphs existingGlyphs unitsPerEm
  let allNames := tempSVGs.map (fun p => p.1) ++ newNames
  let umap := advUnicodeMap existingGlyphs newNames
  if compileOk then
    { res := some (allNames.map (fun n => { name := n, code := mapGet umap n }))
      tempCreated := true
      tempRemoved := true }
  else
    { res := none, tempCreated := true, tempRemoved := false }

/-! ## The `extend-existing-font` tool handler (`src/tools/extend-font.ts`) -/

/-- The inputs the handler observes, after all file reads are resolved. -/
structure ExtendInput where
  existingDirOk : Bool
  newDirOk : Bool
  origDirOk : Bool
  cssFound : Bool
  existingIcons : List ExistingIcon
  origNames : List (List Char)
  newNames : List (List Char)
  compileOk : Bool
  genTypes : Bool
deriving DecidableEq, Repr

/-- The handler's terminal error reports. -/
inductive ExtendErr where
  | existingDirMissing
  | newDirMissing
  | origDirMissing
  | noCssFile
  | noNewSvgs
  | nameConflicts (names : List (List Char))
  | compileFailed
deriving DecidableEq, Repr

/-- Output artifact files the handler can write. -/
inductive Artifact where
  | woff2
  | woff
  | ttf
  | cssOut
  | typesOut
deriving DecidableEq, Repr

/-- Handler outcome: the report kind, the artifact files written, and the
final code-point ledger (empty when aborted). -/
structure ExtendOut where
  err : Option ExtendErr
  writes : List Artifact
  ledger : List (List Char × Nat)
deriving DecidableEq, Repr

/-- The control flow of `registerExtendFontTool`'s handler: directory and
stylesheet checks, the empty-new-set check, the collision check (computed with
`filter`/`includes` over all new names), then allocation, compilation and the
artifact writes — in source order. -/
def runExtendFont (inp : ExtendInput) : ExtendOut :=
  if !inp.existingDirOk then ⟨some .existingDirMissing, [], []⟩
  else if !inp.newDirOk then ⟨some .newDirMissing, [], []⟩
  else if !inp.origDirOk then ⟨some .origDirMissing, [], []⟩
  else if !inp.cssFound then ⟨some .noCssFile, [], []⟩
  else if inp.newNames.length = 0 then ⟨some .noNewSvgs, [], []⟩
  else
    let existingIconNames := inp.existingIcons.map (fun i => i.name)
    let conflicts := inp.newNames.filter (fun n => decide (n ∈ existingIconNames))
    if conflicts.length > 0 then ⟨some (.nameConflicts conflicts), [], []⟩
    else
      let ledger := extendUnicodeMap inp.existingIcons inp.newNames
      if !inp.compileOk then ⟨some .compileFailed, [], []⟩
      else
        ⟨none,
         [.woff2, .woff, .ttf, .cssOut] ++ (if inp.genTypes then [.typesOut] else []),
         ledger⟩

/-! ## Scanning the generated stylesheet -/

theorem ne_dot_of_isWordDash {c : Char} (h : isWordDash c = true) : c ≠ '.' := by
  intro he
  subst he
  simp [isWordDash, isWordChar, Char.isAlphanum, Char.isAlpha, Char.isUpper,
    Char.isLower, Char.isDigit] at h

/-- The rule-tail matcher succeeds on a generated rule tail. -/
theorem matchRuleTail_hit (hex rest : List Char) (hh : ¬(hex = []))
    (hx : ∀ c ∈ hex, isHexDigitCh c = true) :
    matchRuleTail (ruleMid ++ (hex ++ '"' :: rest)) = some (hex, rest) := by
  have h1 : ruleMid ++ (hex ++ '"' :: rest)
      = beforeChars ++ (' ' :: lbrace :: ' ' ::
          (contentChars ++ (' ' :: '"' :: '\\' :: (hex ++ '"' :: rest)))) := by
    simp [ruleMid, List.append_assoc]
  rw [h1]
  unfold matchRuleTail
  rw [eatLit_append]
  rw [Option.some_bind]
  rw [skipWs_cons_pos (by decide), skipWs_cons_neg (by decide), eatChar_cons]
  rw [Option.some_bind]
  rw [skipWs_cons_pos (by decide)]
  rw [show skipWs (contentChars ++ (' ' :: '"' :: '\\' :: (hex ++ '"' :: rest)))
      = contentChars ++ (' ' :: '"' :: '\\' :: (hex ++ '"' :: rest)) by
    simp only [contentChars, List.cons_append]
    exact skipWs_cons_neg (by decide) _]
  rw [eatLit_append]
  rw [Option.some_bind]
  rw [skipWs_cons_pos (by decide), skipWs_cons_neg (by decide), eatChar_cons]
  rw [Option.some_bind]
  rw [eatChar_cons]
  rw [Option.some_bind]
  rw [takeRun_all_stop hx (by intro d t he; cases he; decide)]
  simp only [hh, if_false]
  rw [eatChar_cons]
  rfl

/-- The `\w`-group matcher recovers a generated rule exactly, for word-only
selector pieces. -/
theorem matchRuleW_hit (pfx name hex rest : List Char)
    (hp : ¬(pfx = [])) (hpw : ∀ c ∈ pfx, isWordChar c = true)
    (hn : ¬(name = [])) (hnw : ∀ c ∈ name, isWordChar c = true)
    (hh : ¬(hex = [])) (hx : ∀ c ∈ hex, isHexDigitCh c = true) :
    matchRuleW ('.' :: (pfx ++ '-' :: (name ++ (ruleMid ++ (hex ++ '"' :: rest)))))
      = some (⟨pfx, name, hex⟩, rest) := by
  simp only [matchRuleW, if_pos rfl]
  rw [show pfx ++ '-' :: (name ++ (ruleMid ++ (hex ++ '"' :: rest)))
      = pfx ++ ('-' :: (name ++ (ruleMid ++ (hex ++ '"' :: rest)))) from rfl]
  rw [takeRun_all_stop hpw (by intro d t he; cases he; decide)]
  simp only [hp, if_false]
  rw [eatChar_cons]
  rw [Option.some_bind]
  rw [takeRun_all_stop hnw (by
    intro d t he
    rw [show ruleMid ++ (hex ++ '"' :: rest)
        = ':' :: ('b' :: 'e' :: 'f' :: 'o' :: 'r' :: 'e' :: (' ' :: lbrace :: ' ' ::
            (contentChars ++ (' ' :: '"' :: '\\' :: (hex ++ '"' :: rest)))))
      by simp [ruleMid, beforeChars, List.cons_append]] at he
    cases he
    decide)]
  simp only [hn, if_false]
  rw [matchRuleTail_hit hex rest hh hx]
  rfl

theorem scanW_close_tail (r : List Char) :
    scanW (';' :: ' ' :: rbrace :: r) = scanW r := by
  rw [scanW_cons_none (matchRuleW_not_dot _ (by decide)),
    scanW_cons_none (matchRuleW_not_dot _ (by decide)),
    scanW_cons_none (matchRuleW_not_dot _ (by decide))]

/-- Scanning the joined generated rules recovers exactly one match per rule. -/
theorem scanW_rules (pfx : List Char) (hp : ¬(pfx = []))
    (hpw : ∀ c ∈ pfx, isWordChar c = true) :
    ∀ entries : List (List Char × List Char),
      (∀ e ∈ entries, e.1 ≠ [] ∧ (∀ c ∈ e.1, isWordChar c = true) ∧
        e.2 ≠ [] ∧ (∀ c ∈ e.2, isHexDigitCh c = true)) →
      scanW (joinNL (entries.map (fun p => cssIconRule pfx p.1 p.2)))
        = entries.map (fun p => ⟨pfx, p.1, p.2⟩) := by
  intro entries
  induction entries with
  | nil => intro _; simp [joinNL, scanW_nil]
  | cons e rest ih =>
    intro hall
    obtain ⟨hn, hnw, hh, hhx⟩ := hall e (by simp)
    cases rest with
    | nil =>
      simp only [List.map_cons, List.map_nil, joinNL]
      rw [show cssIconRule pfx e.1 e.2
          = '.' :: (pfx ++ '-' :: (e.1 ++ (ruleMid ++ (e.2 ++ '"' :: (';' :: ' ' :: rbrace :: [])))))
        by simp [cssIconRule, ruleClose]]
      rw [scanW_cons_some (matchRuleW_hit pfx e.1 e.2 _ hp hpw hn hnw hh hhx)]
      rw [scanW_close_tail, scanW_nil]
    | cons e2 rest2 =>
      have hj : joinNL ((e :: e2 :: rest2).map (fun p => cssIconRule pfx p.1 p.2))
          = cssIconRule pfx e.1 e.2 ++
              '\n' :: joinNL ((e2 :: rest2).map (fun p => cssIconRule pfx p.1 p.2)) := by
        simp only [List.map_cons]
        rfl
      rw [hj]
      rw [show cssIconRule pfx e.1 e.2 ++
            '\n' :: joinNL ((e2 :: rest2).map (fun p => cssIconRule pfx p.1 p.2))
          = '.' :: (pfx ++ '-' :: (e.1 ++ (ruleMid ++ (e.2 ++ '"' :: (';' :: ' ' :: rbrace :: '\n' ::
              joinNL ((e2 :: rest2).map (fun p => cssIconRule pfx p.1 p.2)))))))
        by simp [cssIconRule, ruleClose, List.append_assoc]]
      rw [scanW_cons_some (matchRuleW_hit pfx e.1 e.2 _ hp hpw hn hnw hh hhx)]
      rw [scanW_close_tail]
      rw [scanW_cons_none (matchRuleW_not_dot _ (by decide))]
      rw [ih (fun x hx => hall x (by simp [hx]))]
      simp

def ffB1 : List Char := "\x27;\n    src: url(\x27".data
def ffC2 : List Char := ") format(\x27woff2\x27),\n         url(\x27".data
def ffD2 : List Char := ") format(\x27woff\x27),\n         url(\x27".data
def ffE2 : List Char :=
  ") format(\x27truetype\x27);\n    font-weight: normal;\n    font-style: normal;\n\x7d\n\n".data
def ffF1 : List Char := "\x7b\n    font-family: \x27".data

theorem scanW_ffA (r : List Char) : scanW (ffA ++ r) = scanW r :=
  scanW_append_nodot (by decide) r

theorem scanW_fn {fn : List Char} (hf : ∀ c ∈ fn, isWordDash c = true) (r : List Char) :
    scanW (fn ++ r) = scanW r :=
  scanW_append_nodot (fun c hc => ne_dot_of_isWordDash (hf c hc)) r

theorem scanW_ffB (r : List Char) : scanW (ffB ++ r) = scanW r := by
  rw [show ffB = ffB1 ++ ['.', '/'] by decide]
  rw [List.append_assoc, scanW_append_nodot (by decide)]
  simp only [List.cons_append, List.nil_append]
  exact scanW_skip_dot_blocked (by decide) (by decide) r

theorem scanW_ffC (r : List Char) : scanW (ffC ++ r) = scanW r := by
  rw [show ffC ++ r
      = '.' :: ("woff2".data ++ '\x27' :: (ffC2 ++ ('.' :: '/' :: r))) by
    rw [show ffC = ('.' :: "woff2".data) ++ '\x27' :: ffC2 ++ ['.', '/'] by decide]
    simp [List.append_assoc]]
  rw [scanW_skip_dot_run (by decide) (by decide) (by decide)]
  rw [scanW_append_nodot (by decide)]
  exact scanW_skip_dot_blocked (by decide) (by decide) r

theorem scanW_ffD (r : List Char) : scanW (ffD ++ r) = scanW r := by
  rw [show ffD ++ r
      = '.' :: ("woff".data ++ '\x27' :: (ffD2 ++ ('.' :: '/' :: r))) by
    rw [show ffD = ('.' :: "woff".data) ++ '\x27' :: ffD2 ++ ['.', '/'] by decide]
    simp [List.append_assoc]]
  rw [scanW_skip_dot_run (by decide) (by decide) (by decide)]
  rw [scanW_append_nodot (by decide)]
  exact scanW_skip_dot_blocked (by decide) (by decide) r

/-- Skipping the tail of the font-face block: `.ttf` reference, the blank
line, then the bare `.PFX` class rule, the class body and the second
font-family line. -/
theorem scanW_ffE_tail {pfx fn : List Char} (hpne : ¬(pfx = []))
    (hpw : ∀ c ∈ pfx, isWordChar c = true) (hf : ∀ c ∈ fn, isWordDash c = true)
    (r : List Char) :
    scanW (ffE ++ pfx ++ ffF ++ fn ++ ffG ++ r) = scanW r := by
  rw [show ffE ++ pfx ++ ffF ++ fn ++ ffG ++ r
      = '.' :: ("ttf".data ++ '\x27' :: (ffE2 ++ ('.' :: (pfx ++ ' ' ::
          (ffF1 ++ (fn ++ (ffG ++ r))))))) by
    rw [show ffE = ('.' :: "ttf".data) ++ '\x27' :: ffE2 ++ ['.'] by decide,
      show ffF = ' ' :: ffF1 by decide]
    simp [List.append_assoc]]
  rw [scanW_skip_dot_run (by decide) (by decide) (by decide)]
  rw [scanW_append_nodot (by decide)]
  rw [scanW_skip_dot_run hpw (by decide) (by decide)]
  rw [scanW_append_nodot (by decide)]
  rw [scanW_fn hf]
  exact scanW_append_nodot (by decide) r

/-- The whole generated font-face block never matches: scanning passes it. -/
theorem scanW_fontFace {fn pfx : List Char} (hf : ∀ c ∈ fn, isWordDash c = true)
    (hpne : ¬(pfx = [])) (hpw : ∀ c ∈ pfx, isWordChar c = true) (r : List Char) :
    scanW (fontFaceChars fn pfx ++ r) = scanW r := by
  unfold fontFaceChars
  simp only [List.append_assoc]
  rw [scanW_ffA, scanW_fn hf, scanW_ffB, scanW_fn hf, scanW_ffC, scanW_fn hf,
    scanW_ffD, scanW_fn hf]
  rw [show ffE ++ (pfx ++ (ffF ++ (fn ++ (ffG ++ r))))
      = ffE ++ pfx ++ ffF ++ fn ++ ffG ++ r by simp [List.append_assoc]]
  exact scanW_ffE_tail hpne hpw hf r

/-! ## Folding fresh entries into a map -/

theorem mapHas_append {α β : Type} [DecidableEq α] (m1 m2 : List (α × β)) (k : α) :
    mapHas (m1 ++ m2) k = (mapHas m1 k || mapHas m2 k) := by
  induction m1 with
  | nil => simp [mapHas]
  | cons p t ih =>
    by_cases h : p.1 = k
    · simp [mapHas, h]
    · simp [mapHas, h, ih]

/-- Folding `mapSet` over entries whose keys are fresh and pairwise distinct
appends them in order. -/
theorem foldSet_fresh {α β γ : Type} [DecidableEq α] (key : γ → α) (val : γ → β) :
    ∀ (l : List γ) (m : List (α × β)),
      (∀ x ∈ l, mapHas m (key x) = false) → (l.map key).Nodup →
      l.foldl (fun m x => mapSet m (key x) (val x)) m
        = m ++ l.map (fun x => (key x, val x)) := by
  intro l
  induction l with
  | nil => intro m _ _; simp
  | cons x t ih =>
    intro m hfresh hnd
    simp only [List.foldl_cons]
    rw [mapSet_fresh m (key x) (val x) (hfresh x (by simp))]
    have hfresh2 : ∀ y ∈ t, mapHas (m ++ [(key x, val x)]) (key y) = false := by
      intro y hy
      rw [mapHas_append, hfresh y (by simp [hy])]
      simp only [Bool.false_or]
      have hne : ¬(key x = key y) := by
        simp only [List.map_cons, List.nodup_cons] at hnd
        intro he
        exact hnd.1 (he ▸ List.mem_map_of_mem key hy)
      simp [mapHas, hne]
    have hnd2 : (t.map key).Nodup := by
      simp only [List.map_cons, List.nodup_cons] at hnd
      exact hnd.2
    rw [ih (m ++ [(key x, val x)]) hfresh2 hnd2]
    simp

/-! ## Claim C3: round-trip of the ledger through the stylesheet -/

/-- C3 (amended): for every ledger whose glyph names are non-empty strings of
word characters (letters, digits, underscore — no hyphen) with pairwise
distinct names and code points below `0x10000`, and for a word-character
class name and a dot-free font name, serializing with `generateCSS` and
re-parsing with the stylesheet ledger parser `parseExistingFont` recovers
exactly the same `(name, codePoint)` pairs, in the same order. -/
theorem claim_C3_roundtrip_amended (ledger : List ExistingIcon) (fn pfx : List Char)
    (hnames : ∀ i ∈ ledger, i.name ≠ [] ∧ ∀ c ∈ i.name, isWordChar c = true)
    (hnd : (ledger.map (fun i => i.name)).Nodup)
    (hcodes : ∀ i ∈ ledger, i.unicode < 65536)
    (hf : ∀ c ∈ fn, isWordDash c = true)
    (hpne : ¬(pfx = [])) (hpw : ∀ c ∈ pfx, isWordChar c = true) :
    parseExistingFont (generateCSS fn pfx [] ledger) = ledger := by
  have hall : ledger.foldl (fun m i => mapSet m i.name (toHex i.unicode)) []
      = ledger.map (fun i => (i.name, toHex i.unicode)) := by
    have := foldSet_fresh (fun i : ExistingIcon => i.name)
      (fun i => toHex i.unicode) ledger []
      (by intro x _; simp [mapHas]) hnd
    simpa using this
  have hcss : generateCSS fn pfx [] ledger
      = fontFaceChars fn pfx ++ '\n' ::
          joinNL ((ledger.map (fun i => (i.name, toHex i.unicode))).map
            (fun p => cssIconRule pfx p.1 p.2)) := by
    simp only [generateCSS, List.foldl_nil, hall]
  rw [hcss]
  unfold parseExistingFont
  rw [scanW_fontFace hf hpne hpw]
  rw [scanW_cons_none (matchRuleW_not_dot _ (by decide))]
  rw [scanW_rules pfx hpne hpw _ ?cond]
  case cond =>
    intro e he
    simp only [List.mem_map] at he
    obtain ⟨i, hi, rfl⟩ := he
    obtain ⟨h1, h2⟩ := hnames i hi
    exact ⟨h1, h2, toHex_ne_nil _, toHex_all_hex _⟩
  rw [List.map_map, List.map_map]
  have : (fun i : ExistingIcon =>
        ({ name := (⟨pfx, i.name, toHex i.unicode⟩ : RuleM).name,
           unicode := toUint16 (parseHex (⟨pfx, i.name, toHex i.unicode⟩ : RuleM).hex) }
          : ExistingIcon))
      = fun i : ExistingIcon => ({ name := i.name, unicode := toUint16 (parseHex (toHex i.unicode)) } : ExistingIcon) := rfl
  rw [List.map_congr_left]
  · exact List.map_id ledger
  · intro i hi
    simp only [Function.comp]
    rw [parseHex_toHex]
    have : toUint16 i.unicode = i.unicode := Nat.mod_eq_of_lt (hcodes i hi)
    rw [this]
    rfl

/-- C3 witness: a concrete two-entry ledger round-trips. -/
theorem claim_C3_roundtrip_amended_witness :
    parseExistingFont (generateCSS "IconFont".data "icon".data []
        [⟨"home".data, 0xe001⟩, ⟨"user".data, 0xe002⟩])
      = [⟨"home".data, 0xe001⟩, ⟨"user".data, 0xe002⟩] :=
  claim_C3_roundtrip_amended _ _ _ (by decide) (by decide) (by decide) (by decide)
    (by decide) (by decide)

/-- C3 counterexample: a ledger entry whose name contains a hyphen
(`arrow-up`) is serialized as `.icon-arrow-up:before ...` but the stylesheet
ledger parser's `\w`-group regex cannot match it, so the recovered pair set
is empty rather than equal to the ledger — the round-trip claim fails as
stated. -/
theorem claim_C3_counterexample :
    parseExistingFont (generateCSS "IconFont".data "icon".data []
        [⟨"arrow-up".data, 0xe001⟩]) = []
    ∧ [(⟨"arrow-up".data, 0xe001⟩ : ExistingIcon)] ≠ [] :=
  ⟨by decide, by decide⟩

/-! ## Claim C1: allocation monotonicity -/

theorem mapHas_foldSet {α β γ : Type} [DecidableEq α] (key : γ → α) (val : γ → β) :
    ∀ (l : List γ) (m : List (α × β)) (k : α),
      mapHas (l.foldl (fun m x => mapSet m (key x) (val x)) m) k
        = (mapHas m k || l.any (fun x => decide (key x = k))) := by
  intro l
  induction l with
  | nil => intro m k; simp
  | cons x t ih =>
    intro m k
    simp only [List.foldl_cons, List.any_cons]
    rw [ih, mapHas_set]
    by_cases he : key x = k
    · simp [he]
    · have hne : ¬(k = key x) := fun h2 => he h2.symm
      simp [he, hne]

/-- The guarded allocation fold of `generateAdvancedFont` leaves keys outside
the new-name list untouched. -/
theorem allocFoldAdv_other :
    ∀ (names : List (List Char)) (m : List (List Char × Nat)) (c : Nat)
      (x : List Char), x ∉ names →
      mapGet ((names.foldl
        (fun acc n => if mapHas acc.1 n then acc
          else (mapSet acc.1 n (toUint16 acc.2), acc.2 + 1)) (m, c)).1) x
        = mapGet m x := by
  intro names
  induction names with
  | nil => intro m c x _; rfl
  | cons n t ih =>
    intro m c x hx
    have hxn : x ≠ n := fun he => hx (by simp [he])
    have hxt : x ∉ t := fun ht => hx (by simp [ht])
    simp only [List.foldl_cons]
    by_cases hg : mapHas m n
    · simp only [hg, if_true]
      exact ih m c x hxt
    · simp only [hg, Bool.false_eq_true, if_false]
      rw [ih _ _ x hxt, mapGet_set_ne _ _ _ _ hxn]

/-- The unguarded allocation fold of `extend-font.ts` leaves keys outside the
new-name list untouched. -/
theorem allocFoldSimple_other :
    ∀ (names : List (List Char)) (m : List (List Char × Nat)) (c : Nat)
      (x : List Char), x ∉ names →
      mapGet ((names.foldl
        (fun acc n => (mapSet acc.1 n (toUint16 acc.2), acc.2 + 1)) (m, c)).1) x
        = mapGet m x := by
  intro names
  induction names with
  | nil => intro m c x _; rfl
  | cons n t ih =>
    intro m c x hx
    have hxn : x ≠ n := fun he => hx (by simp [he])
    have hxt : x ∉ t := fun ht => hx (by simp [ht])
    simp only [List.foldl_cons]
    rw [ih _ _ x hxt, mapGet_set_ne _ _ _ _ hxn]

/-- The guarded allocation fold assigns `toUint16 (c + i)` to the `i`-th fresh
new name. -/
theorem allocFoldAdv_get :
    ∀ (names : List (List Char)) (m : List (List Char × Nat)) (c : Nat),
      names.Nodup → (∀ n ∈ names, mapHas m n = false) →
      ∀ i, ∀ h : i < names.length,
        mapGet ((names.foldl
          (fun acc n => if mapHas acc.1 n then acc
            else (mapSet acc.1 n (toUint16 acc.2), acc.2 + 1)) (m, c)).1)
          (names.get ⟨i, h⟩)
          = some (toUint16 (c + i)) := by
  intro names
  induction names with
  | nil => intro m c _ _ i h; simp at h
  | cons n t ih =>
    intro m c hnd hfresh i h
    have hg : mapHas m n = false := hfresh n (by simp)
    simp only [List.foldl_cons, hg, Bool.false_eq_true, if_false]
    have hnt : n ∉ t := (List.nodup_cons.mp hnd).1
    have hndt : t.Nodup := (List.nodup_cons.mp hnd).2
    have hfresh2 : ∀ x ∈ t, mapHas (mapSet m n (toUint16 c)) x = false := by
      intro x hx
      rw [mapHas_set, hfresh x (by simp [hx])]
      have : ¬(x = n) := fun he => hnt (he ▸ hx)
      simp [this]
    cases i with
    | zero =>
      simp only [List.get]
      rw [allocFoldAdv_other t _ _ n hnt]
      rw [mapGet_set_self]
      simp
    | succ j =>
      simp only [List.get]
      have hj : j < t.length := by simpa using h
      have := ih (mapSet m n (toUint16 c)) (c + 1) hndt hfresh2 j hj
      rw [this]
      congr 2
      omega

/-- The unguarded allocation fold assigns `toUint16 (c + i)` to the `i`-th
fresh new name. -/
theorem allocFoldSimple_get :
    ∀ (names : List (List Char)) (m : List (List Char × Nat)) (c : Nat),
      names.Nodup →
      ∀ i, ∀ h : i < names.length,
        mapGet ((names.foldl
          (fun acc n => (mapSet acc.1 n (toUint16 acc.2), acc.2 + 1)) (m, c)).1)
          (names.get ⟨i, h⟩)
          = some (toUint16 (c + i)) := by
  intro names
  induction names with
  | nil => intro m c _ i h; simp at h
  | cons n t ih =>
    intro m c hnd i h
    simp only [List.foldl_cons]
    have hnt : n ∉ t := (List.nodup_cons.mp hnd).1
    have hndt : t.Nodup := (List.nodup_cons.mp hnd).2
    cases i with
    | zero =>
      simp only [List.get]
      rw [allocFoldSimple_other t _ _ n hnt]
      rw [mapGet_set_self]
      simp
    | succ j =>
      simp only [List.get]
      have hj : j < t.length := by simpa using h
      have := ih (mapSet m n (toUint16 c)) (c + 1) hndt j hj
      rw [this]
      congr 2
      omega

theorem foldName_fresh_adv (glyphs : List ExtractedGlyph) (n : List Char)
    (hn : n ∉ glyphs.map (fun g => g.name)) :
    mapHas (glyphs.foldl (fun m g => mapSet m g.name g.unicodeChar) []) n = false := by
  rw [mapHas_foldSet (fun g : ExtractedGlyph => g.name) (fun g => g.unicodeChar)]
  rw [show mapHas ([] : List (List Char × Nat)) n = false from rfl]
  rw [Bool.false_or, List.any_eq_false]
  intro g hg
  simp only [decide_eq_true_eq]
  intro he
  exact hn (he ▸ List.mem_map_of_mem _ hg)

/-- C1 (amended): whenever the final assigned value still fits in one UTF-16
code unit (`M + k ≤ 0xFFFF`), both allocation paths (`generateAdvancedFont`
and `extend-font.ts` with `getNextUnicodeValue`) assign exactly
`M+1, …, M+k` to the `k` pairwise-distinct fresh new names in source-scan
order, and an empty existing set starts at `0xE000`.  (Without the bound the
stored value wraps modulo `0x10000`, because code points are stored as
one-character strings built with `String.fromCharCode`.) -/
theorem claim_C1_allocation_amended
    (glyphs : List ExtractedGlyph) (icons : List ExistingIcon)
    (newNames : List (List Char)) (hnd : newNames.Nodup) :
    ((glyphs ≠ [] →
        (∀ n ∈ newNames, n ∉ glyphs.map (fun g => g.name)) →
        maxGlyphUnicode glyphs + newNames.length ≤ 65535 →
        ∀ i, ∀ h : i < newNames.length,
          mapGet (advUnicodeMap glyphs newNames) (newNames.get ⟨i, h⟩)
            = some (maxGlyphUnicode glyphs + 1 + i))
      ∧ (glyphs = [] → ∀ h : newNames ≠ [],
          mapGet (advUnicodeMap glyphs newNames) (newNames.head h) = some 0xe000))
    ∧ ((icons ≠ [] →
        (∀ n ∈ newNames, n ∉ icons.map (fun i => i.name)) →
        maxExistingUnicode icons + newNames.length ≤ 65535 →
        ∀ i, ∀ h : i < newNames.length,
          mapGet (extendUnicodeMap icons newNames) (newNames.get ⟨i, h⟩)
            = some (maxExistingUnicode icons + 1 + i))
      ∧ (icons = [] → ∀ h : newNames ≠ [],
          mapGet (extendUnicodeMap icons newNames) (newNames.head h) = some 0xe000)) := by
  refine ⟨⟨?a1, ?a2⟩, ?b1, ?b2⟩
  case a1 =>
    intro hne hdisj hbound i h
    unfold advUnicodeMap
    have hlen : glyphs.length > 0 := List.length_pos.mpr hne
    rw [if_pos hlen]
    rw [allocFoldAdv_get newNames _ _ hnd
      (fun n hn => foldName_fresh_adv glyphs n (hdisj n hn)) i h]
    congr 1
    have : maxGlyphUnicode glyphs + 1 + i < 65536 := by omega
    exact Nat.mod_eq_of_lt this
  case a2 =>
    intro hg hne
    subst hg
    unfold advUnicodeMap
    simp only [List.foldl_nil, List.length_nil]
    rw [if_neg (by omega)]
    cases newNames with
    | nil => exact absurd rfl hne
    | cons n t =>
      have := allocFoldAdv_get (n :: t) [] 0xe000 hnd
        (by intro x _; rfl) 0 (by simp)
      simpa [toUint16] using this
  case b1 =>
    intro hne hdisj hbound i h
    unfold extendUnicodeMap getNextUnicodeValue
    have hlen : ¬(icons.length = 0) := by
      intro h0
      exact hne (List.eq_nil_of_length_eq_zero h0)
    rw [if_neg hlen]
    rw [allocFoldSimple_get newNames _ _ hnd i h]
    congr 1
    have : maxExistingUnicode icons + 1 + i < 65536 := by omega
    exact Nat.mod_eq_of_lt this
  case b2 =>
    intro hg hne
    subst hg
    unfold extendUnicodeMap getNextUnicodeValue
    simp only [List.foldl_nil, List.length_nil, eq_self_iff_true, if_true]
    cases newNames with
    | nil => exact absurd rfl hne
    | cons n t =>
      have := allocFoldSimple_get (n :: t) [] 0xe000 hnd 0 (by simp)
      simpa [toUint16] using this

/-- C1 witness: with one existing glyph at `0xE001` and new names `b`, `c`,
the advanced path assigns `0xE003` to `c` and the simple path `0xE002` to
`b`. -/
theorem claim_C1_allocation_amended_witness :
    mapGet (advUnicodeMap [⟨['a'], 0xe001, 0xe001, none, none⟩] [['b'], ['c']])
        ([['b'], ['c']].get ⟨1, by decide⟩) = some 0xe003
    ∧ mapGet (extendUnicodeMap [⟨['a'], 0xe001⟩] [['b'], ['c']])
        ([['b'], ['c']].get ⟨0, by decide⟩) = some 0xe002 := by
  constructor
  · have h := (claim_C1_allocation_amended [⟨['a'], 0xe001, 0xe001, none, none⟩]
      [⟨['a'], 0xe001⟩] [['b'], ['c']] (by decide)).1.1
      (by decide) (by decide) (by decide) 1 (by decide)
    exact h.trans (by decide)
  · have h := (claim_C1_allocation_amended [⟨['a'], 0xe001, 0xe001, none, none⟩]
      [⟨['a'], 0xe001⟩] [['b'], ['c']] (by decide)).2.1
      (by decide) (by decide) (by decide) 0 (by decide)
    exact h.trans (by decide)

/-- C1 counterexample: with an existing glyph at code point `M = 0xFFFF`, the
advanced allocation path stores `String.fromCharCode(0x10000)`, i.e. code
point `0`, for the single new name — not `M + 1 = 0x10000` as the claim
states for every `M`. -/
theorem claim_C1_counterexample :
    mapGet (advUnicodeMap [⟨['a'], 0xffff, 0xffff, none, none⟩] [['b']]) ['b']
        = some 0
    ∧ maxGlyphUnicode [⟨['a'], 0xffff, 0xffff, none, none⟩] + 1 = 0x10000
    ∧ (0 : Nat) ≠ 0x10000 :=
  ⟨by decide, by decide, by decide⟩

/-! ## Claim C2: collision is fatal and total -/

/-- C2: whenever an extension invocation (with its directories and stylesheet
present) has at least one new source name equal to an existing glyph name,
the handler returns the `nameConflicts` report computed over all new names,
writes no artifact file, produces no ledger, and the reported list contains
exactly every colliding name. -/
theorem claim_C2_collision_fatal_total (inp : ExtendInput)
    (h1 : inp.existingDirOk = true) (h2 : inp.newDirOk = true)
    (h3 : inp.origDirOk = true) (h4 : inp.cssFound = true)
    (hc : ∃ n, n ∈ inp.newNames ∧ n ∈ inp.existingIcons.map (fun i => i.name)) :
    (runExtendFont inp).err
        = some (.nameConflicts (inp.newNames.filter
            (fun n => decide (n ∈ inp.existingIcons.map (fun i => i.name)))))
    ∧ (runExtendFont inp).writes = []
    ∧ (runExtendFont inp).ledger = []
    ∧ ∀ n, n ∈ inp.newNames.filter
          (fun n => decide (n ∈ inp.existingIcons.map (fun i => i.name)))
        ↔ (n ∈ inp.newNames ∧ n ∈ inp.existingIcons.map (fun i => i.name)) := by
  obtain ⟨n0, hn0new, hn0ex⟩ := hc
  have hnne : ¬(inp.newNames.length = 0) := by
    intro h0
    rw [List.eq_nil_of_length_eq_zero h0] at hn0new
    exact absurd hn0new (List.not_mem_nil n0)
  have hmem : n0 ∈ inp.newNames.filter
      (fun n => decide (n ∈ inp.existingIcons.map (fun i => i.name))) := by
    rw [List.mem_filter]
    exact ⟨hn0new, by simpa using hn0ex⟩
  have hcl : 0 < (inp.newNames.filter
      (fun n => decide (n ∈ inp.existingIcons.map (fun i => i.name)))).length :=
    List.length_pos.mpr (List.ne_nil_of_mem hmem)
  have hrun : runExtendFont inp
      = ⟨some (.nameConflicts (inp.newNames.filter
          (fun n => decide (n ∈ inp.existingIcons.map (fun i => i.name))))), [], []⟩ := by
    unfold runExtendFont
    rw [h1, h2, h3, h4]
    simp only [Bool.not_true, Bool.false_eq_true, if_false]
    rw [if_neg hnne, if_pos hcl]
  refine ⟨by rw [hrun], by rw [hrun], by rw [hrun], ?_⟩
  intro n
  rw [List.mem_filter]
  simp

/-- C2 witness: a concrete invocation whose new batch repeats the existing
name `home` writes nothing and reports exactly `home`. -/
theorem claim_C2_collision_fatal_total_witness :
    (runExtendFont ⟨true, true, true, true, [⟨"home".data, 0xe001⟩],
        ["home".data], ["home".data, "user".data], true, true⟩).writes = [] :=
  (claim_C2_collision_fatal_total _ rfl rfl rfl rfl
    ⟨"home".data, by decide, by decide⟩).2.1

/-! ## Claim C5: re-extension with an empty new-source set -/

/-- C5 (amended): the handler rejects an empty new-source set before any
write — some error is always reported (the `noNewSvgs` report when all input
checks pass), zero artifacts and no ledger are produced — while the
ledger-construction step itself, applied to an empty new-name list,
reproduces the recovered ledger identically (same names, same code points,
same order). -/
theorem claim_C5_empty_reextension_amended (inp : ExtendInput)
    (hnew : inp.newNames = [])
    (hnd : (inp.existingIcons.map (fun i => i.name)).Nodup) :
    (runExtendFont inp).err ≠ none
    ∧ (runExtendFont inp).writes = []
    ∧ (runExtendFont inp).ledger = []
    ∧ extendUnicodeMap inp.existingIcons inp.newNames
        = inp.existingIcons.map (fun i => (i.name, i.unicode)) := by
  obtain ⟨e1, e2, e3, e4, icons, onames, nnames, cok, gt⟩ := inp
  simp only at hnew
  subst hnew
  refine ⟨?_, ?_, ?_, ?_⟩
  · cases e1 <;> cases e2 <;> cases e3 <;> cases e4 <;> simp [runExtendFont]
  · cases e1 <;> cases e2 <;> cases e3 <;> cases e4 <;> simp [runExtendFont]
  · cases e1 <;> cases e2 <;> cases e3 <;> cases e4 <;> simp [runExtendFont]
  · unfold extendUnicodeMap
    simp only [List.foldl_nil]
    have := foldSet_fresh (fun i : ExistingIcon => i.name) (fun i => i.unicode)
      icons [] (by intro x _; rfl) hnd
    simpa using this

/-- C5 witness: a concrete invocation with an empty new batch errors with
zero artifacts, and the allocation step maps the recovered ledger to
itself. -/
theorem claim_C5_empty_reextension_amended_witness :
    (runExtendFont ⟨true, true, true, true, [⟨"home".data, 0xe001⟩],
        ["home".data], [], true, true⟩).writes = []
    ∧ extendUnicodeMap [⟨"home".data, 0xe001⟩] []
        = [("home".data, 0xe001)] := by
  have h := claim_C5_empty_reextension_amended
    ⟨true, true, true, true, [⟨"home".data, 0xe001⟩], ["home".data], [], true, true⟩
    rfl (by decide)
  exact ⟨h.2.1, h.2.2.2⟩

/-- C5 counterexample: extending with an empty new-source set does not
succeed — the handler returns the `noNewSvgs` error report, so no ledger is
reproduced at all. -/
theorem claim_C5_counterexample :
    (runExtendFont ⟨true, true, true, true, [⟨"home".data, 0xe001⟩],
        ["home".data], [], true, true⟩).err = some .noNewSvgs := by
  decide

/-! ## Claim C6: the extractor's inclusion policy -/

theorem extractGlyphs_foldl (raws : List RawGlyph) :
    ∀ acc : List ExtractedGlyph,
      raws.foldl
        (fun acc g =>
          match g.unicode with
          | some u => if 32 < u then acc ++ [convRawGlyph g u] else acc
          | none => acc) acc
      = acc ++ (raws.filter
          (fun g =>
            match g.unicode with
            | some u => decide (32 < u)
            | none => false)).map (fun g => convRawGlyph g (g.unicode.getD 0)) := by
  induction raws with
  | nil => intro acc; simp
  | cons g t ih =>
    intro acc
    simp only [List.foldl_cons, List.filter_cons]
    cases hu : g.unicode with
    | none => simp [hu, ih]
    | some u =>
      by_cases h32 : 32 < u
      · simp [hu, h32, ih]
      · simp [hu, h32, ih]

/-- C6: the extractor keeps a binary glyph, in index order, exactly when it
has an assigned code point and that code point is strictly greater than 32;
glyphs with no code point or a code point ≤ 32 are excluded. -/
theorem claim_C6_extraction_filter (raws : List RawGlyph) :
    extractGlyphsFromTTF raws
      = (raws.filter
          (fun g =>
            match g.unicode with
            | some u => decide (32 < u)
            | none => false)).map (fun g => convRawGlyph g (g.unicode.getD 0)) := by
  unfold extractGlyphsFromTTF
  simpa using extractGlyphs_foldl raws []

/-! ## Claims C7 and C8: the name reconciler and its last-wins map -/

theorem splitLastDashAux_snd_ne_nil :
    ∀ l : List Char, ∀ a b : List Char, splitLastDashAux l = some (a, b) → b ≠ [] := by
  intro l
  induction l with
  | nil => intro a b h; cases h
  | cons c t ih =>
    intro a b h
    cases hs : splitLastDashAux t with
    | some p =>
      obtain ⟨p1, p2⟩ := p
      simp only [splitLastDashAux, hs, Option.some.injEq, Prod.mk.injEq] at h
      obtain ⟨h1, h2⟩ := h
      subst h2
      exact ih p1 p2 hs
    | none =>
      simp only [splitLastDashAux, hs] at h
      split at h
      · rename_i hcond
        simp only [Option.some.injEq, Prod.mk.injEq] at h
        obtain ⟨h1, h2⟩ := h
        subst h2
        simp only [Bool.and_eq_true, Bool.not_eq_true'] at hcond
        intro hte
        rw [hte] at hcond
        simp at hcond
      · cases h

theorem splitLastDash_snd_ne_nil {l a b : List Char}
    (h : splitLastDash l = some (a, b)) : b ≠ [] := by
  cases l with
  | nil => cases h
  | cons c t =>
    simp only [splitLastDash, Option.map_eq_some'] at h
    obtain ⟨p, hp, he⟩ := h
    cases he
    exact splitLastDashAux_snd_ne_nil t p.1 p.2 (by rw [hp])

theorem matchRuleWD_name_ne_nil {l : List Char} {pr : RuleM × List Char}
    (h : matchRuleWD l = some pr) : pr.1.name ≠ [] := by
  cases l with
  | nil => cases h
  | cons c t =>
    simp only [matchRuleWD] at h
    split at h
    · rw [Option.bind_eq_some] at h
      obtain ⟨g, hg, h⟩ := h
      rw [Option.map_eq_some'] at h
      obtain ⟨p, _, he⟩ := h
      cases he
      exact splitLastDash_snd_ne_nil (by rw [hg])
    · cases h

theorem scanWDCore_name_ne_nil :
    ∀ fuel : Nat, ∀ l : List Char, ∀ r ∈ scanWDCore fuel l, r.name ≠ [] := by
  intro fuel
  induction fuel with
  | zero => intro l r hr; simp [scanWDCore] at hr
  | succ f ih =>
    intro l r hr
    cases l with
    | nil => simp [scanWDCore] at hr
    | cons c t =>
      simp only [scanWDCore] at hr
      cases hm : matchRuleWD (c :: t) with
      | some pr =>
        rw [hm] at hr
        simp only [List.mem_cons] at hr
        rcases hr with rfl | hr
        · exact matchRuleWD_name_ne_nil hm
        · exact ih pr.2 r hr
      | none =>
        rw [hm] at hr
        exact ih t r hr

theorem scanWD_name_ne_nil {l : List Char} {r : RuleM} (hr : r ∈ scanWD l) :
    r.name ≠ [] :=
  scanWDCore_name_ne_nil l.length l r hr

/-- Any value retrievable from a `mapSet` fold is either already in the
initial map or one of the folded values. -/
theorem mapGet_foldSet_mem {α β γ : Type} [DecidableEq α] (key : γ → α) (val : γ → β) :
    ∀ (l : List γ) (m : List (α × β)) (k : α) (v : β),
      mapGet (l.foldl (fun m x => mapSet m (key x) (val x)) m) k = some v →
      mapGet m k = some v ∨ ∃ x ∈ l, val x = v := by
  intro l
  induction l with
  | nil => intro m k v h; exact Or.inl h
  | cons x t ih =>
    intro m k v h
    simp only [List.foldl_cons] at h
    rcases ih (mapSet m (key x) (val x)) k v h with hin | ⟨y, hy, hv⟩
    · by_cases he : k = key x
      · subst he
        rw [mapGet_set_self] at hin
        cases hin
        exact Or.inr ⟨x, by simp, rfl⟩
      · rw [mapGet_set_ne _ _ _ _ he] at hin
        exact Or.inl hin
    · exact Or.inr ⟨y, by simp [hy], hv⟩

theorem buildIconMap_value_ne_nil {css : List Char} {u : Nat} {n : List Char}
    (h : mapGet (buildIconMap css) u = some n) : n ≠ [] := by
  unfold buildIconMap at h
  rcases mapGet_foldSet_mem (fun r : RuleM => parseHex r.hex) (fun r => r.name)
    (scanWD css) [] u n h with hin | ⟨r, hr, hv⟩
  · cases hin
  · exact hv ▸ scanWD_name_ne_nil hr

/-- C7: the name reconciler maps each extracted glyph, in order, to the same
glyph with its name replaced by the stylesheet name at its code point when
one exists and kept unchanged otherwise; no glyph is added or removed, all
other fields are preserved, and the operation is total. -/
theorem claim_C7_name_reconciliation (glyphs : List ExtractedGlyph) (css : List Char) :
    mapGlyphNamesWithCSS glyphs css
      = glyphs.map (fun g =>
          { g with name := (mapGet (buildIconMap css) g.unicode).getD g.name }) := by
  unfold mapGlyphNamesWithCSS
  apply List.map_congr_left
  intro g _
  cases hm : mapGet (buildIconMap css) g.unicode with
  | none => simp [jsOrName, hm]
  | some n =>
    have hne : ¬(n = []) := buildIconMap_value_ne_nil hm
    simp [jsOrName, hm, hne]

theorem getLast?_cons_ne_nil {α : Type} (a : α) {l : List α} (h : l ≠ []) :
    (a :: l).getLast? = l.getLast? := by
  cases l with
  | nil => exact absurd rfl h
  | cons b t => simp [List.getLast?_cons_cons]

theorem getLast?_ne_none {α : Type} (b : α) (t : List α) :
    (b :: t).getLast? ≠ none := by
  induction t generalizing b with
  | nil => simp
  | cons c t ih => rw [List.getLast?_cons_cons]; exact ih c

/-- The value of a `mapSet` fold at a key is the folded value of the last
entry with that key, if any. -/
theorem mapGet_foldSet_last {α β γ : Type} [DecidableEq α] (key : γ → α) (val : γ → β) :
    ∀ (l : List γ) (m : List (α × β)) (k : α),
      mapGet (l.foldl (fun m x => mapSet m (key x) (val x)) m) k
        = match (l.filter (fun x => decide (key x = k))).getLast? with
          | some x => some (val x)
          | none => mapGet m k := by
  intro l
  induction l with
  | nil => intro m k; simp
  | cons x t ih =>
    intro m k
    simp only [List.foldl_cons, List.filter_cons]
    rw [ih (mapSet m (key x) (val x)) k]
    by_cases hx : key x = k
    · rw [if_pos (by simpa using hx)]
      cases hlast : (t.filter (fun y => decide (key y = k))).getLast? with
      | some y =>
        rw [getLast?_cons_ne_nil x (by intro he; rw [he] at hlast; cases hlast), hlast]
      | none =>
        have ht : t.filter (fun y => decide (key y = k)) = [] := by
          cases hfe : t.filter (fun y => decide (key y = k)) with
          | nil => rfl
          | cons b u => rw [hfe] at hlast; exact absurd hlast (getLast?_ne_none b u)
        rw [ht]
        simp only [List.getLast?_singleton]
        show mapGet (mapSet m (key x) (val x)) k = some (val x)
        subst hx
        rw [mapGet_set_self]
    · have hxk : ¬(k = key x) := fun he => hx he.symm
      rw [if_neg (by simpa using hx)]
      cases hlast : (t.filter (fun y => decide (key y = k))).getLast? with
      | some y => rfl
      | none =>
        show mapGet (mapSet m (key x) (val x)) k = mapGet m k
        exact mapGet_set_ne _ _ _ _ hxk

/-- The `iconMap` lookup at a code point is the stylesheet name of the last
matching rule for that code point. -/
theorem buildIconMap_get (css : List Char) (u : Nat) :
    mapGet (buildIconMap css) u
      = match ((scanWD css).filter (fun r => decide (parseHex r.hex = u))).getLast? with
        | some r => some r.name
        | none => none := by
  unfold buildIconMap
  rw [mapGet_foldSet_last (fun r : RuleM => parseHex r.hex) (fun r => r.name)]
  cases ((scanWD css).filter (fun r => decide (parseHex r.hex = u))).getLast? <;> rfl

/-- C8: when the stylesheet contains at least one rule (and in particular
when several rules, possibly with different names, target the same code
point), the parser's table maps that code point to the name of the last
matching rule in textual order. -/
theorem claim_C8_last_rule_wins (css : List Char) (u : Nat)
    (hne : (scanWD css).filter (fun r => decide (parseHex r.hex = u)) ≠ []) :
    mapGet (buildIconMap css) u
      = ((scanWD css).filter (fun r => decide (parseHex r.hex = u))).getLast?.map
          (fun r => r.name) := by
  rw [buildIconMap_get]
  cases hlast : ((scanWD css).filter (fun r => decide (parseHex r.hex = u))).getLast? with
  | some r => rfl
  | none =>
    cases hfe : (scanWD css).filter (fun r => decide (parseHex r.hex = u)) with
    | nil => exact absurd hfe hne
    | cons b t =>
      rw [hfe] at hlast
      exact absurd hlast (getLast?_ne_none b t)

/-- C8 witness: two generated rules `a` and `b` at the same code point
`0xE001` — the map resolves the code point to `b`, the later rule. -/
theorem claim_C8_last_rule_wins_witness :
    mapGet (buildIconMap (joinNL [cssIconRule "icon".data ['a'] "e001".data,
        cssIconRule "icon".data ['b'] "e001".data])) 0xe001
      = ((scanWD (joinNL [cssIconRule "icon".data ['a'] "e001".data,
          cssIconRule "icon".data ['b'] "e001".data])).filter
            (fun r => decide (parseHex r.hex = 0xe001))).getLast?.map (fun r => r.name)
    ∧ mapGet (buildIconMap (joinNL [cssIconRule "icon".data ['a'] "e001".data,
        cssIconRule "icon".data ['b'] "e001".data])) 0xe001 = some ['b'] :=
  ⟨claim_C8_last_rule_wins _ _ (by decide), by decide⟩

/-! ## Claim C9: temp-directory cleanup in `generateAdvancedFont` -/

/-- C9 evaluation: on every invocation whose compile step throws, the model of
`generateAdvancedFont` has already created the `.temp_glyphs` directory but
returns (rethrowing the error) with the directory still present — `fs.remove`
runs only after a successful `webfont` call and the `catch` block performs no
cleanup.  On the success path the directory is removed. -/
theorem claim_C9_cleanup_code_eval (glyphs : List ExtractedGlyph)
    (newNames : List (List Char)) (unitsPerEm : Nat) :
    ((generateAdvancedFont glyphs newNames unitsPerEm false).res = none
      ∧ (generateAdvancedFont glyphs newNames unitsPerEm false).tempCreated = true
      ∧ (generateAdvancedFont glyphs newNames unitsPerEm false).tempRemoved = false)
    ∧ (generateAdvancedFont glyphs newNames unitsPerEm true).tempRemoved = true := by
  simp [generateAdvancedFont]

/-! ## Claim C10: glyphs without recovered outlines are silently dropped -/

theorem createTempSVGs_foldl (glyphs : List ExtractedGlyph) (u : Nat) :
    ∀ acc : List (List Char × List Char),
      glyphs.foldl
        (fun acc g =>
          match g.pathData with
          | some pd => if pd = [] then acc else acc ++ [(g.name, pathDataToSVG pd u)]
          | none => acc) acc
      = acc ++ (glyphs.filter
          (fun g =>
            match g.pathData with
            | some pd => !pd.isEmpty
            | none => false)).map
          (fun g => (g.name, pathDataToSVG (g.pathData.getD []) u)) := by
  induction glyphs with
  | nil => intro acc; simp
  | cons g t ih =>
    intro acc
    simp only [List.foldl_cons, List.filter_cons]
    cases hp : g.pathData with
    | none => simp [hp, ih]
    | some pd =>
      by_cases hpd : pd = []
      · subst hpd
        simp [hp, ih]
      · simp [hp, hpd, ih, List.isEmpty_iff]

/-- `createTempSVGsFromGlyphs` writes exactly one file per glyph with truthy
path data, in glyph order. -/
theorem createTempSVGs_eq (glyphs : List ExtractedGlyph) (u : Nat) :
    createTempSVGsFromGlyphs glyphs u
      = (glyphs.filter
          (fun g =>
            match g.pathData with
            | some pd => !pd.isEmpty
            | none => false)).map
          (fun g => (g.name, pathDataToSVG (g.pathData.getD []) u)) := by
  unfold createTempSVGsFromGlyphs
  simpa using createTempSVGs_foldl glyphs u []

theorem nodup_map_inj {α β : Type} {f : α → β} {l : List α}
    (h : (l.map f).Nodup) :
    ∀ x ∈ l, ∀ y ∈ l, f x = f y → x = y := by
  induction l with
  | nil => intro x hx; simp at hx
  | cons a t ih =>
    simp only [List.map_cons, List.nodup_cons] at h
    intro x hx y hy hf
    rcases List.mem_cons.mp hx with rfl | hx2
    · rcases List.mem_cons.mp hy with rfl | hy2
      · rfl
      · exact absurd (hf ▸ List.mem_map_of_mem f hy2) h.1
    · rcases List.mem_cons.mp hy with rfl | hy2
      · exact absurd (hf ▸ List.mem_map_of_mem f hx2) h.1
      · exact ih h.2 x hx2 y hy2 hf

/-- C10: in the advanced extension path, an extracted glyph without recovered
path data is silently dropped — no temporary vector file is created for it,
the run still succeeds, and no glyph of the regenerated font carries its
name. -/
theorem claim_C10_missing_outline_omitted (glyphs : List ExtractedGlyph)
    (newNames : List (List Char)) (u : Nat) (g : ExtractedGlyph)
    (hg : g ∈ glyphs) (hpd : g.pathData = none)
    (hnd : (glyphs.map (fun x => x.name)).Nodup)
    (hnew : g.name ∉ newNames) :
    g.name ∉ (createTempSVGsFromGlyphs glyphs u).map (fun p => p.1)
    ∧ ∃ fontGlyphs,
        (generateAdvancedFont glyphs newNames u true).res = some fontGlyphs
        ∧ ∀ cg ∈ fontGlyphs, cg.name ≠ g.name := by
  have htemp : g.name ∉ (createTempSVGsFromGlyphs glyphs u).map (fun p => p.1) := by
    rw [createTempSVGs_eq]
    intro hmem
    rw [List.map_map] at hmem
    simp only [List.mem_map, Function.comp] at hmem
    obtain ⟨g2, hg2, hname⟩ := hmem
    have hg2mem : g2 ∈ glyphs := List.mem_of_mem_filter hg2
    have : g2 = g := nodup_map_inj hnd g2 hg2mem g hg hname
    subst this
    have := List.of_mem_filter hg2
    rw [hpd] at this
    cases this
  refine ⟨htemp, ?_⟩
  refine ⟨((createTempSVGsFromGlyphs glyphs u).map (fun p => p.1) ++ newNames).map
    (fun n => ⟨n, mapGet (advUnicodeMap glyphs newNames) n⟩), ?_, ?_⟩
  · simp [generateAdvancedFont]
  · intro cg hcg
    simp only [List.mem_map] at hcg
    obtain ⟨n, hn, rfl⟩ := hcg
    intro he
    simp only at he
    subst he
    rcases List.mem_append.mp hn with hn | hn
    · exact htemp hn
    · exact hnew hn

/-- C10 witness: a concrete glyph `ghost` without path data is absent from the
temp files and from the successful compiled output, alongside a preserved
glyph `home` and a new icon `star`. -/
theorem claim_C10_missing_outline_omitted_witness :
    "ghost".data ∉ (createTempSVGsFromGlyphs
        [⟨"home".data, 0xe001, 0xe001, some "M0 0Z".data, some 512⟩,
         ⟨"ghost".data, 0xe002, 0xe002, none, none⟩] 1000).map (fun p => p.1)
    ∧ ∃ fontGlyphs,
        (generateAdvancedFont
          [⟨"home".data, 0xe001, 0xe001, some "M0 0Z".data, some 512⟩,
           ⟨"ghost".data, 0xe002, 0xe002, none, none⟩]
          ["star".data] 1000 true).res = some fontGlyphs
        ∧ ∀ cg ∈ fontGlyphs, cg.name ≠ "ghost".data :=
  claim_C10_missing_outline_omitted
    [⟨"home".data, 0xe001, 0xe001, some "M0 0Z".data, some 512⟩,
     ⟨"ghost".data, 0xe002, 0xe002, none, none⟩]
    ["star".data] 1000 ⟨"ghost".data, 0xe002, 0xe002, none, none⟩
    (by decide) rfl (by decide) (by decide)

/-! ## Claim C4: the shape round-trip document and its transform -/

/-- Affine operations appearing in an SVG `transform` attribute. -/
inductive TOp where
  | scaleOp (a b : Int)
  | translateOp (a b : Int)
deriving DecidableEq, Repr

/-- One transform operation applied to a point. -/
def applyTOp : TOp → Int × Int → Int × Int
  | .scaleOp a b, (x, y) => (a * x, b * y)
  | .translateOp a b, (x, y) => (x + a, y + b)

/-- SVG semantics of a two-operation transform list: the right operation is
applied to the point first. -/
def applyTwo (o1 o2 : TOp) (p : Int × Int) : Int × Int :=
  applyTOp o1 (applyTOp o2 p)

/-- Everything except a double quote (an attribute value character). -/
def notQuote (c : Char) : Bool := !(decide (c = '"'))

/-- Parse an optionally negated decimal integer. -/
def parseIntDec (l : List Char) : Option (Int × List Char) :=
  match l with
  | [] => none
  | c :: t =>
    if c = '-' then
      if (takeRun Char.isDigit t).1 = [] then none
      else some (-(parseDec (takeRun Char.isDigit t).1 : Int), (takeRun Char.isDigit t).2)
    else
      if (takeRun Char.isDigit (c :: t)).1 = [] then none
      else some ((parseDec (takeRun Char.isDigit (c :: t)).1 : Int),
        (takeRun Char.isDigit (c :: t)).2)

/-- Parse a `scale(a,b)` operation. -/
def parseScale (l : List Char) : Option (TOp × List Char) :=
  (eatLit "scale(".data l).bind fun r =>
  (parseIntDec r).bind fun p1 =>
  (eatChar ',' p1.2).bind fun r2 =>
  (parseIntDec r2).bind fun p2 =>
  (eatChar ')' p2.2).map fun r3 => (TOp.scaleOp p1.1 p2.1, r3)

/-- Parse a `translate(a,b)` operation. -/
def parseTranslate (l : List Char) : Option (TOp × List Char) :=
  (eatLit "translate(".data l).bind fun r =>
  (parseIntDec r).bind fun p1 =>
  (eatChar ',' p1.2).bind fun r2 =>
  (parseIntDec r2).bind fun p2 =>
  (eatChar ')' p2.2).map fun r3 => (TOp.translateOp p1.1 p2.1, r3)

/-- Parse one `scale(a,b)` or `translate(a,b)` operation. -/
def parseOneOp (l : List Char) : Option (TOp × List Char) :=
  match parseScale l with
  | some q => some q
  | none => parseTranslate l

/-- Parse a transform attribute value consisting of exactly two operations
separated by one space, with nothing after them. -/
def parseTwoOps (l : List Char) : Option (TOp × TOp) :=
  (parseOneOp l).bind fun q1 =>
  (eatChar ' ' q1.2).bind fun r =>
  (parseOneOp r).bind fun q2 =>
  if q2.2 = [] then some (q1.1, q2.1) else none

/-- `" transform="` — between the path data and the transform value. -/
def tAttrOpen : List Char := "\" transform=\"".data

/-- `"/>` and the closing tag — after the transform value. -/
def tDocEnd : List Char := "\"/>\n</svg>".data

/-- Structural parse of the generated glyph document: viewBox width and
height, the path data, and the raw transform attribute value. -/
def parseSVGDoc (doc : List Char) : Option (Nat × Nat × List Char × List Char) :=
  (eatLit svgA doc).bind fun r1 =>
  (if (takeRun Char.isDigit r1).1 = [] then none
   else some ((takeRun Char.isDigit r1).1, (takeRun Char.isDigit r1).2)).bind fun w =>
  (eatChar ' ' w.2).bind fun r2 =>
  (if (takeRun Char.isDigit r2).1 = [] then none
   else some ((takeRun Char.isDigit r2).1, (takeRun Char.isDigit r2).2)).bind fun h =>
  (eatLit svgB h.2).bind fun r3 =>
  (eatLit tAttrOpen (takeRun notQuote r3).2).bind fun r4 =>
  (eatLit tDocEnd (takeRun notQuote r4).2).bind fun r5 =>
  if r5 = [] then
    some (parseDec w.1, parseDec h.1, (takeRun notQuote r3).1, (takeRun notQuote r4).1)
  else none

/-- The transform attribute value the source emits. -/
def transformValueChars (u : Nat) : List Char :=
  "scale(1,-1) translate(0,-".data ++ toDec u ++ [')']

theorem parseOneOp_of_scale {l : List Char} {q : TOp × List Char}
    (h : parseScale l = some q) : parseOneOp l = some q := by
  unfold parseOneOp
  rw [h]

theorem parseOneOp_of_no_scale {l : List Char} (h : parseScale l = none) :
    parseOneOp l = parseTranslate l := by
  unfold parseOneOp
  rw [h]

theorem notQuote_of_isDigit {c : Char} (h : c.isDigit = true) : notQuote c = true := by
  unfold notQuote
  by_cases he : c = '"'
  · subst he; exact absurd h (by decide)
  · simp [he]

theorem eatLit_head_ne {c d : Char} (cs t : List Char) (h : ¬(d = c)) :
    eatLit (c :: cs) (d :: t) = none := by
  simp [eatLit, h]

theorem parseIntDec_pos (ds rest : List Char) (hne : ds ≠ [])
    (hds : ∀ c ∈ ds, c.isDigit = true)
    (hstop : ∀ d t, rest = d :: t → d.isDigit = false) :
    parseIntDec (ds ++ rest) = some ((parseDec ds : Int), rest) := by
  cases ds with
  | nil => exact absurd rfl hne
  | cons d0 t0 =>
    have hd0 : d0.isDigit = true := hds d0 (by simp)
    have hnd : ¬(d0 = '-') := by
      intro he
      rw [he] at hd0
      exact absurd hd0 (by decide)
    simp only [List.cons_append, parseIntDec, hnd, if_false]
    rw [show d0 :: (t0 ++ rest) = (d0 :: t0) ++ rest from rfl]
    rw [takeRun_all_stop hds hstop]
    simp

theorem parseIntDec_negative (ds rest : List Char) (hne : ds ≠ [])
    (hds : ∀ c ∈ ds, c.isDigit = true)
    (hstop : ∀ d t, rest = d :: t → d.isDigit = false) :
    parseIntDec ('-' :: (ds ++ rest)) = some (-(parseDec ds : Int), rest) := by
  simp only [parseIntDec, if_pos rfl]
  rw [takeRun_all_stop hds hstop]
  simp [hne]

theorem parseScale_hit (X : List Char) :
    parseScale ("scale(1,-1)".data ++ X) = some (TOp.scaleOp 1 (-1), X) := by
  rw [show ("scale(1,-1)".data : List Char)
      = "scale(".data ++ ['1', ',', '-', '1', ')'] from by decide]
  rw [List.append_assoc]
  unfold parseScale
  rw [eatLit_append]
  simp only [Option.some_bind, List.cons_append, List.nil_append]
  rw [show ('1' :: ',' :: '-' :: '1' :: ')' :: X)
      = ['1'] ++ (',' :: '-' :: '1' :: ')' :: X) from rfl]
  rw [parseIntDec_pos ['1'] _ (by decide) (by decide)
    (by intro dd tt he; cases he; decide)]
  simp only [Option.some_bind]
  rw [eatChar_cons]
  simp only [Option.some_bind]
  rw [show ('1' :: ')' :: X) = ['1'] ++ (')' :: X) from rfl]
  rw [parseIntDec_negative ['1'] _ (by decide) (by decide)
    (by intro dd tt he; cases he; decide)]
  simp only [Option.some_bind]
  rw [eatChar_cons]
  simp [parseDec, decVal]

theorem parseTranslate_hit (u : Nat) :
    parseTranslate ("translate(0,-".data ++ (toDec u ++ [')']))
      = some (TOp.translateOp 0 (-(u : Int)), []) := by
  rw [show ("translate(0,-".data : List Char)
      = "translate(".data ++ ['0', ',', '-'] from by decide]
  rw [List.append_assoc]
  unfold parseTranslate
  rw [eatLit_append]
  simp only [Option.some_bind, List.cons_append, List.nil_append]
  rw [show ('0' :: ',' :: '-' :: (toDec u ++ [')']))
      = ['0'] ++ (',' :: '-' :: (toDec u ++ [')'])) from rfl]
  rw [parseIntDec_pos ['0'] _ (by decide) (by decide)
    (by intro dd tt he; cases he; decide)]
  simp only [Option.some_bind]
  rw [eatChar_cons]
  simp only [Option.some_bind]
  rw [parseIntDec_negative (toDec u) [')'] (toDec_ne_nil u) (toDec_all_digit u)
    (by intro dd tt he; cases he; decide)]
  simp only [Option.some_bind]
  rw [eatChar_cons, parseDec_toDec]
  simp [parseDec, decVal]

theorem parseScale_no_translate (u : Nat) :
    parseScale ("translate(0,-".data ++ (toDec u ++ [')'])) = none := by
  unfold parseScale
  rw [show ("translate(0,-".data : List Char)
      = 't' :: "ranslate(0,-".data from by decide]
  rw [show ("scale(".data : List Char) = 's' :: "cale(".data from by decide]
  rw [List.cons_append, eatLit_head_ne _ _ (by decide)]
  rfl

/-- C4: for every path data without a quote character and every units-per-em,
the generated vector document parses back to a viewport of exactly
`units-per-em × units-per-em` with the path data intact, its transform
attribute is exactly `scale(1,-1) translate(0,-unitsPerEm)`, and that
transform denotes the map `(x, y) ↦ (x, unitsPerEm − y)` — the vertical
flip followed by the units-per-em shift.  Determinism holds because
`pathDataToSVG` is a pure function of `(pathData, unitsPerEm)`. -/
theorem claim_C4_shape_transform (d : List Char) (u : Nat)
    (hd : ∀ c ∈ d, ¬(c = '"')) :
    parseSVGDoc (pathDataToSVG d u) = some (u, u, d, transformValueChars u)
    ∧ parseTwoOps (transformValueChars u)
        = some (TOp.scaleOp 1 (-1), TOp.translateOp 0 (-(u : Int)))
    ∧ ∀ x y : Int,
        applyTwo (TOp.scaleOp 1 (-1)) (TOp.translateOp 0 (-(u : Int))) (x, y)
          = (x, (u : Int) - y) := by
  refine ⟨?doc, ?ops, ?sem⟩
  case doc =>
    have hdoc : pathDataToSVG d u
        = svgA ++ (toDec u ++ (' ' :: (toDec u ++ (svgB ++ (d ++
            (tAttrOpen ++ (transformValueChars u ++ tDocEnd))))))) := by
      unfold pathDataToSVG transformValueChars
      rw [show (svgC : List Char)
          = tAttrOpen ++ "scale(1,-1) translate(0,-".data from by decide]
      rw [show (svgD : List Char) = ')' :: tDocEnd from by decide]
      simp [List.append_assoc]
    rw [hdoc]
    unfold parseSVGDoc
    rw [eatLit_append]
    simp only [Option.some_bind]
    rw [takeRun_all_stop (toDec_all_digit u) (by intro dd tt he; cases he; decide)]
    simp only [toDec_ne_nil u, if_false]
    simp only [Option.some_bind]
    rw [eatChar_cons]
    simp only [Option.some_bind]
    rw [takeRun_all_stop (toDec_all_digit u) (by
      intro dd tt he
      rw [show (svgB : List Char) = '"' :: ">\n  <path d=\"".data from by decide,
        List.cons_append] at he
      cases he
      decide)]
    simp only [toDec_ne_nil u, if_false]
    simp only [Option.some_bind]
    rw [eatLit_append]
    simp only [Option.some_bind]
    rw [takeRun_all_stop
      (fun c hc => by unfold notQuote; simp [hd c hc])
      (by
        intro dd tt he
        rw [show (tAttrOpen : List Char) = '"' :: " transform=\"".data from by decide,
          List.cons_append] at he
        cases he
        decide)]
    rw [eatLit_append]
    simp only [Option.some_bind]
    rw [takeRun_all_stop
      (fun c hc => by
        unfold transformValueChars at hc
        have hconc : ∀ x ∈ "scale(1,-1) translate(0,-".data, notQuote x = true := by
          decide
        rcases List.mem_append.mp hc with hc1 | hc2
        · rcases List.mem_append.mp hc1 with hc3 | hc4
          · exact hconc c hc3
          · exact notQuote_of_isDigit (toDec_all_digit u c hc4)
        · simp only [List.mem_singleton] at hc2
          subst hc2
          decide)
      (by
        intro dd tt he
        rw [show (tDocEnd : List Char) = '"' :: "/>\n</svg>".data from by decide] at he
        cases he
        decide)]
    rw [show eatLit tDocEnd tDocEnd = some [] from by decide]
    simp only [Option.some_bind, if_true, parseDec_toDec]
  case ops =>
    rw [show transformValueChars u
        = "scale(1,-1)".data ++ (' ' :: ("translate(0,-".data ++ (toDec u ++ [')'])))
      from by
        unfold transformValueChars
        rw [show ("scale(1,-1) translate(0,-".data : List Char)
            = "scale(1,-1)".data ++ (' ' :: "translate(0,-".data) from by decide]
        simp [List.append_assoc]]
    unfold parseTwoOps
    rw [parseOneOp_of_scale (parseScale_hit _)]
    simp only [Option.some_bind]
    rw [eatChar_cons]
    simp only [Option.some_bind]
    rw [parseOneOp_of_no_scale (parseScale_no_translate u), parseTranslate_hit u]
    simp
  case sem =>
    intro x y
    simp only [applyTwo, applyTOp, Prod.mk.injEq]
    constructor
    · ring
    · ring

/-- C4 witness: a concrete outline at 1000 units per em. -/
theorem claim_C4_shape_transform_witness :
    parseSVGDoc (pathDataToSVG "M0 0L10 20Z".data 1000)
      = some (1000, 1000, "M0 0L10 20Z".data, transformValueChars 1000)
    ∧ parseTwoOps (transformValueChars 1000)
        = some (TOp.scaleOp 1 (-1), TOp.translateOp 0 (-(1000 : Int)))
    ∧ ∀ x y : Int,
        applyTwo (TOp.scaleOp 1 (-1)) (TOp.translateOp 0 (-(1000 : Int))) (x, y)
          = (x, (1000 : Int) - y) :=
  claim_C4_shape_transform "M0 0L10 20Z".data 1000 (by decide)
